import Mathlib

/-!
# PyLauncher: argument tokenizer, version extraction and version selection

A shallow embedding of `src/parsing.cpp` and `src/PyLauncher.cpp`.

Conventions of the embedding
* `std::wstring` is `List Char`; a `wchar_t` code unit is a `Char`.
* An iterator into a string is a `Nat` offset; in the tokenizer the offset is
  taken relative to the current `start`, so the loop state is the text from
  `start` to `str.cend()`.
* Output parameters (`wstring *version_tag`, `vector<wstring> &args`) are
  threaded through as extra results.
* `verbose` output (`wprintf_s`) has no effect on results and is omitted.
-/

namespace PyLauncher

abbrev wstring := List Char

/-! ## parsing.cpp : find_next_arg / split_args -/

/-- Loop of `find_next_arg` over the characters from `begin`, with the three
flags of the source. The result is the offset from `begin` of the returned
iterator, `none` standing for `end`. -/
def find_next_arg_loop : List Char → Bool → Bool → Bool → Option Nat
  | [], _, _, _ => none
  | c :: cs, inQuote, escaping, finishedArg =>
    if finishedArg && c != ' ' then some 0
    else if c == '"' && !escaping then
      (find_next_arg_loop cs (!inQuote) escaping finishedArg).map (· + 1)
    else if c == '\\' then
      (find_next_arg_loop cs inQuote (!escaping) finishedArg).map (· + 1)
    else if c == ' ' && !escaping && !inQuote then
      (find_next_arg_loop cs inQuote escaping true).map (· + 1)
    else
      (find_next_arg_loop cs inQuote false finishedArg).map (· + 1)

/-- Source `find_next_arg(begin, end)`: offset of the start of the next
argument, `none` when the scan reaches `end`. -/
def find_next_arg (s : List Char) : Option Nat :=
  find_next_arg_loop s false false false

/-- Inner loop of `split_args`:
`while (end != start && *(end - 1) == L' ') --end;` with `end` an offset from
`start`. -/
def trim_end (s : List Char) : Nat → Nat
  | 0 => 0
  | e + 1 => if s.get? e == some ' ' then trim_end s e else e + 1

/-- Body of the `while` loop of `split_args`. `s` is the text from `start` to
`str.cend()`, `res` the vector built so far. Every iteration advances `start`
by at least one character, so `s.length + 1` iterations always suffice; the
first argument bounds the number of iterations. -/
def split_args_loop : Nat → List Char → List wstring → List wstring
  | 0, s, res => res ++ [s]
  | fuel + 1, s, res =>
    match find_next_arg s with
    | none => res ++ [s]
    | some nextStart =>
      let e := trim_end s (nextStart - 1)
      if e == 0 then res ++ [s]
      else
        let tok :=
          if s.head? == some '"' then
            let e1 := e - 1
            if e1 == 0 || s.get? e1 != some '"' then s.take e
            else (s.take e1).drop 1
          else s.take e
        split_args_loop fuel (s.drop nextStart) (res ++ [tok])

/-- Source `split_args(str)`. -/
def split_args (str : wstring) : List wstring :=
  split_args_loop (str.length + 1) str []

/-! ## PyLauncher.cpp : join_args -/

/-- What `join_args` writes for one element `a`. -/
def join_args_arg (a : wstring) : List Char :=
  if a.isEmpty then ['"', '"']
  else if a.contains ' ' then
    '"' :: a ++ (if a.getLast? == some '\\' then ['\\'] else []) ++ ['"']
  else a

/-- Loop of `join_args` with its `first` flag. -/
def join_args_loop : Bool → List wstring → List Char
  | _, [] => []
  | first, a :: rest =>
    (if first then [] else [' ']) ++ join_args_arg a ++ join_args_loop false rest

/-- Source `join_args(start, end)`. -/
def join_args (args : List wstring) : wstring :=
  join_args_loop true args

/-! ## parsing.cpp : skip_shebang / equal_ignore_case / parse_shebang -/

/-- The interpreter templates of `parse_shebang`, in source order. -/
def SHEBANG_TEMPLATES : List wstring :=
  ["/usr/bin/env".toList, "/usr/bin/".toList]

/-- CRT `iswspace`, taken on the six white-space characters of the C locale. -/
def iswspace (c : Char) : Bool :=
  c == ' ' || c == '\t' || c == '\n' || c == '\x0b' || c == '\x0c' || c == '\r'

/-- Source `skip_shebang(begin, end)` on the text `l` between `begin` and `end`;
the result is the text from the returned iterator to `end` (empty when the
source returns `end`). After `#!` the loop advances over white space. -/
def skip_shebang (l : List Char) : List Char :=
  match l with
  | '#' :: '!' :: rest => rest.dropWhile iswspace
  | _ => []

/-- Source `equal_ignore_case`: `CompareStringW` with `NORM_IGNORECASE` on the
two `c_str()` pointers with length `-1`, so each operand stops at its first
NUL. The OS comparison is taken to be equality after folding the case of the
letters `A`-`Z`. -/
def equal_ignore_case (left right : wstring) : Bool :=
  (left.takeWhile (· != '\x00')).map Char.toLower ==
    (right.takeWhile (· != '\x00')).map Char.toLower

/-- The `for` loop over `SHEBANG_TEMPLATES` in `parse_shebang`, acting on the
token vector `args` (whose first element is `a0`). -/
def parse_shebang_templates : List wstring → List wstring → List wstring
  | [], args => args
  | _, [] => []
  | tmpl :: more, a0 :: rest =>
    if a0 == tmpl then rest
    else if a0.length > tmpl.length && a0.take tmpl.length == tmpl then
      a0.drop tmpl.length :: rest
    else parse_shebang_templates more (a0 :: rest)

/-- Result of `extract_version` and `parse_shebang`: the returned `bool`, the
argument vector after the call and `*version_tag` after the call. -/
abbrev ExtractResult := Bool × List wstring × wstring

/-- Source `parse_shebang(filename, version_tag, allArgs)`.
`read_first_line` gives the decoded buffer returned by the source function of
that name for a file name (`none` for `nullptr`); `extract_version` is the
recursive call, `none` when its recursion budget is used up. -/
def parse_shebang (read_first_line : wstring → Option wstring)
    (extract_version : List wstring → wstring → Option ExtractResult)
    (filename : wstring) (version_tag : wstring) (allArgs : List wstring) :
    Option ExtractResult :=
  match read_first_line filename with
  | none => some (false, allArgs, version_tag)
  | some line =>
    if line.length < 2 || line.get? 0 != some '#' || line.get? 1 != some '!' then
      some (false, allArgs, version_tag)
    else
      let endl := (line.takeWhile (· != '\r')).takeWhile (· != '\n')
      let shebang := skip_shebang endl
      let args := split_args shebang
      if args.length == 0 then some (false, allArgs, version_tag)
      else
        match extract_version (parse_shebang_templates SHEBANG_TEMPLATES args) version_tag with
        | none => none
        | some (_, args1, tag1) => some (true, args1 ++ allArgs.drop 1, tag1)

/-! ## parsing.cpp : extract_version / parse_args -/

/-- Offset of `std::find(s.crbegin(), s.crend(), c).base()`: one past the last
occurrence of `c` in `s`, and `0` when `c` does not occur. -/
def rfind_base (c : Char) (s : List Char) : Nat :=
  (s.reverse.dropWhile (· != c)).length

/-- The "Check process name" block of `extract_version` applied to
`process = args[0]`; `some tag` when the block sets the version.

* `lastDot` is `rfind_base '.' - 1`. When the name has no `'.'` the source forms
  the iterator before `begin()`; the text read from there is taken not to
  compare equal to `.exe`, so `lastDot` becomes `process.cend()`.
* `rstart` is the base of the last `'/'` found after the last backslash.
* `first_digits` is the array `L"23"` including its terminating NUL, so
  `std::find_first_of` also stops at a NUL character.
* The window is the text in `[rstart, lastDot)`. -/
def check_process_name (process : wstring) : Option wstring :=
  let dotBase := rfind_base '.' process
  let lastDot :=
    if dotBase != 0 && equal_ignore_case ".exe".toList (process.drop (dotBase - 1)) then
      dotBase - 1
    else process.length
  let lastBackslash := rfind_base '\\' process
  let rstart := lastBackslash + rfind_base '/' (process.drop lastBackslash)
  let window := (process.take lastDot).drop rstart
  let skipped := window.takeWhile (fun c => !(c == '2' || c == '3' || c == '\x00'))
  if skipped.length == window.length then none
  else some (window.drop skipped.length)

/-- Source `extract_version(args, version_tag)`. The first argument bounds the
depth of the recursion through `parse_shebang`; `none` means the bound was
reached. -/
def extract_version (read_first_line : wstring → Option wstring) :
    Nat → List wstring → wstring → Option ExtractResult
  | 0, _, _ => none
  | fuel + 1, args, version_tag =>
    -- Check first argument
    let s1 : ExtractResult :=
      match args with
      | _ :: version_arg :: rest =>
        if version_arg.length ≥ 1 &&
            (version_arg.head? == some '2' || version_arg.head? == some '3') then
          (true, [] :: rest, version_arg)
        else (false, args, version_tag)
      | _ => (false, args, version_tag)
    -- Check process name
    let s2 : ExtractResult :=
      match s1 with
      | (false, process :: rest, _) =>
        match check_process_name process with
        | some t => (true, [] :: rest, t)
        | none => s1
      | _ => s1
    -- Check shebang line
    match s2 with
    | (false, args2, tag2) =>
      if args2.length ≥ 2 then
        match (args2.drop 1).find? (fun a => a.length > 0 && a.head? != some '-') with
        | some filename =>
          parse_shebang read_first_line (extract_version read_first_line fuel)
            filename tag2 args2
        | none => some (false, args2, tag2)
      else some (false, args2, tag2)
    | _ => some s2

/-- Source `parse_args(line, version_tag)`: the returned vector and
`*version_tag`. -/
def parse_args (read_first_line : wstring → Option wstring) (fuel : Nat)
    (line : wstring) (version_tag : wstring) : Option (List wstring × wstring) :=
  let args := split_args line
  if args.length ≥ 1 then
    match extract_version read_first_line fuel args version_tag with
    | none => none
    | some (false, args1, tag1) => some (args1.set 0 [], tag1)
    | some (true, args1, tag1) => some (args1, tag1)
  else some (args, version_tag)

/-! ## parsing.cpp : read_first_line -/

/-- The `std::wstring` built from a `wchar_t*` that points at these bytes of
the zero-filled `buffer`: little-endian 16-bit code units up to the first code
unit that is zero. A last single byte is followed by a zero byte of the
buffer. A code unit in the surrogate range `D800`-`DFFF` has no `Char` and is
rendered as `U+0000`, so the embedding is exact for text of the basic plane
without surrogates. -/
def wide_string : List Nat → wstring
  | lo :: hi :: rest =>
    if lo + 256 * hi == 0 then [] else Char.ofNat (lo + 256 * hi) :: wide_string rest
  | [lo] => if lo == 0 then [] else [Char.ofNat lo]
  | [] => []

/-- The NUL-terminated `char` string at the start of these bytes of the
zero-filled `buffer`. -/
def c_string (bytes : List Nat) : List Nat :=
  bytes.takeWhile (· != 0)

/-- Code page identifier `CP_ACP`. -/
def CP_ACP : Nat := 0

/-- Code page identifier `CP_UTF8`. -/
def CP_UTF8 : Nat := 65001

/-- Source `read_first_line(filename)`, `none` for `nullptr`.
`ReadFile filename` gives the bytes the OS delivers for the file opened with
`CreateFileW` (`none` when `CreateFileW` or `ReadFile` fails); at most
`sizeof(buffer) - 2 = 2046` of them are read. `MultiByteToWideChar cp bytes` is
the wide string the OS conversion leaves in `wbuffer` for the NUL-terminated
byte string `bytes` in code page `cp`. -/
def read_first_line (ReadFile : wstring → Option (List Nat))
    (MultiByteToWideChar : Nat → List Nat → wstring) (filename : wstring) :
    Option wstring :=
  match ReadFile filename with
  | none => none
  | some data =>
    let buffer := data.take 2046
    let bytesRead := buffer.length
    if bytesRead < 3 then none
    else if bytesRead > 2 && buffer.get? 0 == some 0xFF && buffer.get? 1 == some 0xFE then
      some (wide_string (buffer.drop 2))
    else if bytesRead > 2 && buffer.get? 0 == some 0 && buffer.get? 1 != some 0 then
      some (wide_string buffer)
    else if bytesRead > 3 && buffer.get? 0 == some 0xEF && buffer.get? 1 == some 0xBB &&
        buffer.get? 2 == some 0xBF then
      some (MultiByteToWideChar CP_UTF8 (c_string (buffer.drop 3)))
    else if bytesRead > 0 then
      some (MultiByteToWideChar CP_ACP (c_string buffer))
    else none

/-- The bytes of a text in UTF-16 little-endian without byte-order mark, for
characters of the basic plane. -/
def utf16le (text : wstring) : List Nat :=
  text.flatMap (fun c => [c.toNat % 256, c.toNat / 256])

/-- A code page conversion that maps every byte to the character of the same
number, as every ANSI code page does for the bytes below 128. It is used on
short inputs only and does not render the limit of 1023 characters of
`wbuffer`. -/
def ascii_code_page (_cp : Nat) (bytes : List Nat) : wstring :=
  bytes.map Char.ofNat

/-! ## PyLauncher.cpp : python_version -/

/-- Source `struct python_version`; the `int` members are only compared. -/
structure python_version where
  tag : wstring
  install_path : wstring
  exe_name : wstring
  major : Int
  minor : Int
  priority : Int
deriving DecidableEq

/-- Source `python_version::invalid`: a default-constructed object with static
storage, so the strings are empty and the integers are zero. -/
def python_version.invalid : python_version :=
  ⟨[], [], [], 0, 0, 0⟩

/-- Source `python_version::is_valid`. -/
def python_version.is_valid (v : python_version) : Bool :=
  !v.tag.isEmpty

/-- Source `python_version::operator==`. -/
def python_version.operator_eq (a other : python_version) : Bool :=
  a.major == other.major && a.minor == other.minor && a.tag == other.tag

/-- The `operator<` of `std::wstring`: lexicographic comparison of the code
units, a proper initial segment being smaller. -/
def wstring_lt : wstring → wstring → Bool
  | [], [] => false
  | [], _ :: _ => true
  | _ :: _, [] => false
  | a :: as, b :: bs =>
    if a < b then true else if b < a then false else wstring_lt as bs

/-- Source `python_version::operator<`. -/
def python_version.operator_lt (a other : python_version) : Bool :=
  if a.major > other.major then true
  else if a.major < other.major then false
  else if a.minor > other.minor then true
  else if a.minor < other.minor then false
  else if a.priority < other.priority then true
  else if a.priority > other.priority then false
  else wstring_lt a.tag other.tag

/-! ## PyLauncher.cpp : enum_reg (append and deduplicate) -/

/-- Lines 160-168 of `enum_reg`: `emplace_back` of the new installation `v`,
`std::find` of the first element equal to the new last element, and `pop_back`
when that element is not the last one. -/
def enum_reg_emplace (versions : List python_version) (v : python_version) :
    List python_version :=
  let versions1 := versions ++ [v]
  let existing := versions1.findIdx (fun x => x.operator_eq v)
  if existing != versions1.length && existing != versions1.length - 1 then
    versions1.dropLast
  else versions1

/-! ## PyLauncher.cpp : python_version constructor -/

/-- CRT `wcstoul(nptr, &endptr, 10)` on the text at `nptr`: the value returned
and the offset of `endptr` from `nptr`. White space is skipped, one sign is
accepted, then decimal digits are read; without a digit nothing is converted
and `endptr` is `nptr`. `unsigned long` has 32 bits: a value that does not fit
gives `ULONG_MAX`, a minus sign negates modulo `2^32`. -/
def wcstoul (nptr : List Char) : Nat × Nat :=
  let white := nptr.takeWhile iswspace
  let afterWhite := nptr.drop white.length
  let signLength := if afterWhite.head? == some '-' || afterWhite.head? == some '+' then 1 else 0
  let negative := afterWhite.head? == some '-'
  let digits := (afterWhite.drop signLength).takeWhile Char.isDigit
  if digits.length == 0 then (0, 0)
  else
    let value := digits.foldl (fun acc d => acc * 10 + (d.toNat - 48)) 0
    let result :=
      if value > 4294967295 then 4294967295
      else if negative then (4294967296 - value) % 4294967296
      else value
    (result, white.length + signLength + digits.length)

/-- Conversion of an `unsigned long` to `int` on assignment (both 32 bits). -/
def ulong_to_int (u : Nat) : Int :=
  if u % 4294967296 < 2147483648 then (u % 4294967296 : Nat)
  else ((u % 4294967296 : Nat) : Int) - 4294967296

/-- Source constructor `python_version(tag, install_path, exe_name, priority)`.
The string arguments are `wchar_t*`, so each stops at its first NUL. The
constructor has no initialiser for `major` and `minor`; `major` is assigned on
every path, `minor` only when a character follows the first number.
`uninit_minor` is the value the member holds when it is not assigned. -/
def python_version.construct (tag install_path exe_name : wstring) (priority : Int)
    (uninit_minor : Int) : python_version :=
  let tagText := tag.takeWhile (· != '\x00')
  let first := wcstoul tagText
  let majorMinor : Int × Int :=
    if first.2 == 0 then (0, uninit_minor)
    else if (tagText.drop first.2).length != 0 then
      let second := wcstoul (tagText.drop (first.2 + 1))
      (ulong_to_int first.1, if second.2 == 0 then 0 else ulong_to_int second.1)
    else (ulong_to_int first.1, uninit_minor)
  { tag := tagText
    install_path := install_path.takeWhile (· != '\x00')
    exe_name := exe_name.takeWhile (· != '\x00')
    major := majorMinor.1
    minor := majorMinor.2
    priority := priority }

/-! ## PyLauncher.cpp : enum_reg -/

/-- Outcome of `RegQueryValueExW` for a string value when the buffer is large
enough: the string, `ERROR_FILE_NOT_FOUND`, or another error. -/
inductive RegValue where
  | found (data : wstring)
  | not_found
  | failed
deriving DecidableEq

/-- A subkey that `RegEnumKeyExW` delivers with a name that fits `name[64]`:
whether `RegOpenKeyExW` on `name\InstallPath` succeeds, the default value of
that key and its values `ExeName` and `WExeName`. -/
structure RegSubkey where
  name : wstring
  opened : Bool
  install_path : RegValue
  exe_name : RegValue
  wexe_name : RegValue
deriving DecidableEq

/-- Outcome of one call of `RegEnumKeyExW`: a subkey, `ERROR_MORE_DATA` for a
name that is too long, or another error. The end of the list of outcomes is
`ERROR_NO_MORE_ITEMS`. -/
inductive RegEnumItem where
  | subkey (k : RegSubkey)
  | more_data
  | error
deriving DecidableEq

/-- Number of bytes of a registry string with its terminating NUL. -/
def reg_sz_bytes (data : wstring) : Nat :=
  (data.length + 1) * 2

/-- One iteration of the loop of `enum_reg` for a delivered subkey: the vector
after the iteration.
* The first `RegQueryValueExW` reads the default value into `path` with
  `cbPath = sizeof(path) = 1040` and leaves the size of the data in `cbPath`.
* The second `RegQueryValueExW` reads `WExeName` or `ExeName`, and it is also
  given `path` and `cbPath`: on success the value is in `path` and the array
  `exe_name` has not been written; `uninit_exe_name` is the text it holds then.
  A value larger than `cbPath` gives `ERROR_MORE_DATA`, which skips the entry.
* `GetBinaryTypeW` gives the binary type of a path, `none` on failure;
  `SCS_32BIT_BINARY` is `0`. -/
def enum_reg_subkey (GetBinaryTypeW : wstring → Option Nat) (uninit_exe_name : wstring)
    (uninit_minor : Int) (versions : List python_version) (k : RegSubkey)
    (priority : Int) (preferW onlyX86 : Bool) : List python_version :=
  if !k.opened then versions
  else
    match k.install_path with
    | RegValue.found installPath =>
      if reg_sz_bytes installPath > 1040 then versions
      else
        let cbPath := reg_sz_bytes installPath
        let buffers : Option (wstring × wstring) :=
          match (if preferW then k.wexe_name else k.exe_name) with
          | RegValue.not_found =>
            some (installPath, if preferW then "pythonw.exe".toList else "python.exe".toList)
          | RegValue.found exeName =>
            if reg_sz_bytes exeName > cbPath then none
            else some (exeName, uninit_exe_name)
          | RegValue.failed => none
        match buffers with
        | none => versions
        | some (path, exe_name) =>
          let fullPath := path.takeWhile (· != '\x00') ++ "\\".toList ++
            exe_name.takeWhile (· != '\x00')
          match GetBinaryTypeW fullPath with
          | none => versions
          | some binaryType =>
            if onlyX86 && binaryType != 0 then versions
            else
              enum_reg_emplace versions
                (python_version.construct k.name path exe_name priority uninit_minor)
    | _ => versions

/-- Source `enum_reg(versions, hKey, priority, preferW, onlyX86)`; `items` are
the outcomes of `RegEnumKeyExW` for the indices `0, 1, ...` under `hKey`. One
value `uninit_minor` and one text `uninit_exe_name` stand for every member and
array left unwritten, where the code keeps whatever each storage held. -/
def enum_reg (GetBinaryTypeW : wstring → Option Nat) (uninit_exe_name : wstring)
    (uninit_minor : Int) :
    List python_version → List RegEnumItem → Int → Bool → Bool → List python_version
  | versions, [], _, _, _ => versions
  | versions, RegEnumItem.error :: _, _, _, _ => versions
  | versions, RegEnumItem.more_data :: rest, priority, preferW, onlyX86 =>
    enum_reg GetBinaryTypeW uninit_exe_name uninit_minor versions rest priority preferW onlyX86
  | versions, RegEnumItem.subkey k :: rest, priority, preferW, onlyX86 =>
    enum_reg GetBinaryTypeW uninit_exe_name uninit_minor
      (enum_reg_subkey GetBinaryTypeW uninit_exe_name uninit_minor versions k priority
        preferW onlyX86)
      rest priority preferW onlyX86

/-! ## PyLauncher.cpp : find_python / find_suitable_version -/

/-- Source `find_python(known, version)`: the element at the returned iterator,
`none` for `known.end()`. -/
def find_python (known : List python_version) (version : wstring) :
    Option python_version :=
  known.find? (fun pv =>
    if pv.tag.length < version.length then false
    else version == pv.tag.take version.length)

/-- The call `std::sort(pythons.begin(), pythons.end())`, which orders by
`operator<`. Elements that `operator<` does not separate may come out in any
order; the model sorts by insertion. -/
def std_sort (pythons : List python_version) : List python_version :=
  pythons.insertionSort (fun a b => b.operator_lt a = false)

/-- Source `find_suitable_version(version)`. `scan preferW onlyX86` is the
vector `pythons` after the three `enum_reg` calls (HKCU with priority 1, HKLM
64-bit with priority 2, HKLM 32-bit with priority 3) made with these flags. -/
def find_suitable_version (scan : Bool → Bool → List python_version)
    (version : wstring) : python_version :=
  let preferW := version.length ≥ 1 &&
    (version.getLast? == some 'w' || version.getLast? == some 'W')
  let version := if preferW then version.dropLast else version
  let onlyX86 := version.length ≥ 3 &&
    version.drop (version.length - 3) == "-32".toList
  let pythons := std_sort (scan preferW onlyX86)
  let selected : Option python_version :=
    if version.length != 0 then
      match find_python pythons version with
      | some pv => some pv
      | none =>
        if onlyX86 && version.length > 3 then
          find_python pythons (version.take (version.length - 3))
        else none
    else pythons.head?
  match selected with
  | none => python_version.invalid
  | some pv => pv

/-- An installation as the examples write it: tag, install path, parsed
version numbers and scope priority; the executable is `python.exe`. -/
def sample (tag path : String) (major minor priority : Int) : python_version :=
  ⟨tag.toList, path.toList, "python.exe".toList, major, minor, priority⟩

/-! ## PyLauncher.cpp : main -/

/-- Source `python_version::full_path`. -/
def python_version.full_path (v : python_version) : wstring :=
  (if v.install_path.length != 0 && v.install_path.getLast? != some '\\' then
      v.install_path ++ "\\".toList
    else v.install_path) ++ v.exe_name

/-- The ways `main` ends: the branch that prints `Invalid arguments!` and
returns `-1`, the return of `-1` for an installation that is not valid, and
the return of `0` with the final argument vector. -/
inductive MainOutcome where
  | invalid_arguments
  | no_suitable_version
  | selected (args : List wstring)
deriving DecidableEq

/-- Source `main`, for the command line `GetCommandLineW()` gives; `version`
starts empty. The environment switches only control output. `none` means the
recursion bound of `extract_version` was reached. -/
def main (read_first_line : wstring → Option wstring)
    (scan : Bool → Bool → List python_version) (fuel : Nat) (commandLine : wstring) :
    Option MainOutcome :=
  match parse_args read_first_line fuel commandLine [] with
  | none => none
  | some (args, version) =>
    if args.length == 0 then some MainOutcome.invalid_arguments
    else if (args.head?.getD []).isEmpty then
      let python := find_suitable_version scan version
      if !python.is_valid then some MainOutcome.no_suitable_version
      else some (MainOutcome.selected (args.set 0 python.full_path))
    else some (MainOutcome.selected args)

/-! ## Ordering of installations -/

theorem wstring_lt_irrefl (a : wstring) : wstring_lt a a = false := by
  induction a with
  | nil => rfl
  | cons x xs ih => simp [wstring_lt, ih]

theorem wstring_lt_trans (a b c : wstring)
    (hab : wstring_lt a b = true) (hbc : wstring_lt b c = true) :
    wstring_lt a c = true := by
  induction a generalizing b c with
  | nil =>
    cases b with
    | nil => simp [wstring_lt] at hab
    | cons y ys =>
      cases c with
      | nil => simp [wstring_lt] at hbc
      | cons z zs => simp [wstring_lt]
  | cons x xs ih =>
    cases b with
    | nil => simp [wstring_lt] at hab
    | cons y ys =>
      cases c with
      | nil => simp [wstring_lt] at hbc
      | cons z zs =>
        simp only [wstring_lt] at hab hbc ⊢
        rcases lt_trichotomy x y with hxy | hxy | hxy
        · rcases lt_trichotomy y z with hyz | hyz | hyz
          · simp [lt_trans hxy hyz]
          · subst hyz; simp [hxy]
          · simp [hyz, lt_asymm hyz] at hbc
        · subst hxy
          rcases lt_trichotomy x z with hyz | hyz | hyz
          · simp [hyz]
          · subst hyz
            simp only [lt_self_iff_false, if_false] at hab hbc ⊢
            exact ih _ _ hab hbc
          · simp [hyz, lt_asymm hyz] at hbc
        · simp [hxy, lt_asymm hxy] at hab

theorem wstring_lt_total (a b : wstring) (h : a ≠ b) :
    wstring_lt a b = true ∨ wstring_lt b a = true := by
  induction a generalizing b with
  | nil =>
    cases b with
    | nil => exact absurd rfl h
    | cons y ys => simp [wstring_lt]
  | cons x xs ih =>
    cases b with
    | nil => simp [wstring_lt]
    | cons y ys =>
      simp only [wstring_lt]
      rcases lt_trichotomy x y with hxy | hxy | hxy
      · simp [hxy]
      · subst hxy
        simp only [lt_self_iff_false, if_false]
        exact ih ys (fun e => h (by rw [e]))
      · simp [hxy, lt_asymm hxy]

theorem wstring_lt_iff_lex (a b : wstring) :
    wstring_lt a b = true ↔ List.Lex (· < ·) a b := by
  induction a generalizing b with
  | nil =>
    cases b with
    | nil => simp [wstring_lt]
    | cons y ys => simp [wstring_lt, List.Lex.nil]
  | cons x xs ih =>
    cases b with
    | nil => simp [wstring_lt]
    | cons y ys =>
      simp only [wstring_lt]
      rcases lt_trichotomy x y with hxy | hxy | hxy
      · simp only [hxy, if_true, true_iff]
        exact List.Lex.rel hxy
      · subst hxy
        simp only [lt_self_iff_false, if_false]
        rw [ih]
        constructor
        · intro hl; exact List.Lex.cons hl
        · intro hl
          cases hl with
          | cons hl1 => exact hl1
          | rel hr => exact absurd hr (lt_irrefl _)
      · simp only [lt_asymm hxy, hxy, if_false, if_true]
        constructor
        · intro hf; cases hf
        · intro hl
          cases hl with
          | cons hl1 => exact absurd hxy (lt_irrefl _)
          | rel hr => exact absurd hr (lt_asymm hxy)

theorem operator_lt_iff (a b : python_version) :
    a.operator_lt b = true ↔
      (b.major < a.major ∨ (a.major = b.major ∧ b.minor < a.minor)) ∨
      (a.major = b.major ∧ a.minor = b.minor ∧ a.priority < b.priority) ∨
      (a.major = b.major ∧ a.minor = b.minor ∧ a.priority = b.priority ∧
        wstring_lt a.tag b.tag = true) := by
  unfold python_version.operator_lt
  split_ifs with h1 h2 h3 h4 h5 h6
  · simp only [true_iff]; omega
  · simp only [Bool.false_eq_true, false_iff]; omega
  · simp only [true_iff]; omega
  · simp only [Bool.false_eq_true, false_iff]; omega
  · simp only [true_iff]; omega
  · simp only [Bool.false_eq_true, false_iff]; omega
  · have e1 : a.major = b.major := by omega
    have e2 : a.minor = b.minor := by omega
    have e3 : a.priority = b.priority := by omega
    simp [e1, e2, e3]

theorem operator_lt_irrefl (a : python_version) : a.operator_lt a = false := by
  have h := operator_lt_iff a a
  rcases hb : a.operator_lt a with _ | _
  · rfl
  · rw [hb] at h
    have h1 := h.mp rfl
    rw [wstring_lt_irrefl] at h1
    rcases h1 with (h1 | h1) | h1 | h1
    · omega
    · omega
    · omega
    · exact absurd h1.2.2.2 (by simp)

theorem operator_lt_trans (a b c : python_version)
    (hab : a.operator_lt b = true) (hbc : b.operator_lt c = true) :
    a.operator_lt c = true := by
  rw [operator_lt_iff] at hab hbc ⊢
  rcases hab with (h | h) | h | h <;> rcases hbc with (g | g) | g | g
  all_goals first
    | (left; omega)
    | (right; left; omega)
    | (right; right
       exact ⟨by omega, by omega, by omega, wstring_lt_trans _ _ _ h.2.2.2 g.2.2.2⟩)

theorem operator_lt_total (a b : python_version)
    (h : (a.major, a.minor, a.priority, a.tag) ≠ (b.major, b.minor, b.priority, b.tag)) :
    a.operator_lt b = true ∨ b.operator_lt a = true := by
  rw [operator_lt_iff, operator_lt_iff]
  by_cases e1 : a.major = b.major
  · by_cases e2 : a.minor = b.minor
    · by_cases e3 : a.priority = b.priority
      · have e4 : a.tag ≠ b.tag := by
          intro e4
          apply h
          rw [e1, e2, e3, e4]
        rcases wstring_lt_total _ _ e4 with w | w
        · left; right; right; exact ⟨e1, e2, e3, w⟩
        · right; right; right; exact ⟨e1.symm, e2.symm, e3.symm, w⟩
      · rcases lt_or_gt_of_ne e3 with w | w
        · left; right; left; exact ⟨e1, e2, w⟩
        · right; right; left; exact ⟨e1.symm, e2.symm, w⟩
    · rcases lt_or_gt_of_ne e2 with w | w
      · right; left; right; exact ⟨e1.symm, w⟩
      · left; left; right; exact ⟨e1, w⟩
  · rcases lt_or_gt_of_ne e1 with w | w
    · right; left; left; exact w
    · left; left; left; exact w

theorem operator_lt_asymm (a b : python_version) (h : a.operator_lt b = true) :
    b.operator_lt a = false := by
  rcases hb : b.operator_lt a with _ | _
  · rfl
  · have h2 := operator_lt_trans a b a h hb
    rw [operator_lt_irrefl] at h2
    exact absurd h2 (by simp)

/-- Two installations that `operator<` does not separate agree on major, minor,
priority and tag. -/
theorem operator_lt_incomparable (a b : python_version)
    (h1 : a.operator_lt b = false) (h2 : b.operator_lt a = false) :
    (a.major, a.minor, a.priority, a.tag) = (b.major, b.minor, b.priority, b.tag) := by
  by_contra hne
  rcases operator_lt_total a b hne with w | w
  · rw [w] at h1; exact absurd h1 (by simp)
  · rw [w] at h2; exact absurd h2 (by simp)

theorem operator_lt_congr_left (a b c : python_version)
    (h : (a.major, a.minor, a.priority, a.tag) = (b.major, b.minor, b.priority, b.tag)) :
    a.operator_lt c = b.operator_lt c := by
  simp only [Prod.mk.injEq] at h
  obtain ⟨e1, e2, e3, e4⟩ := h
  simp only [python_version.operator_lt, e1, e2, e3, e4]

theorem operator_lt_congr_right (a b c : python_version)
    (h : (a.major, a.minor, a.priority, a.tag) = (b.major, b.minor, b.priority, b.tag)) :
    c.operator_lt a = c.operator_lt b := by
  simp only [Prod.mk.injEq] at h
  obtain ⟨e1, e2, e3, e4⟩ := h
  simp only [python_version.operator_lt, e1, e2, e3, e4]

/-- The relation "not after", the order `std_sort` sorts by, is transitive. -/
theorem not_after_trans (a b c : python_version)
    (hab : b.operator_lt a = false) (hbc : c.operator_lt b = false) :
    c.operator_lt a = false := by
  rcases hca : c.operator_lt a with _ | _
  · rfl
  · rcases hba : a.operator_lt b with _ | _
    · have e := operator_lt_incomparable a b hba hab
      rw [operator_lt_congr_right a b c e, hbc] at hca
      exact absurd hca (by simp)
    · have h2 := operator_lt_trans c a b hca hba
      rw [hbc] at h2
      exact absurd h2 (by simp)

/-- C10: `operator<` puts `a` before `b` exactly when `(major, minor)` of `a` is
lexicographically greater, or these agree and `a` has the smaller priority, or
these agree too and the tag of `a` is lexicographically smaller; the relation
is irreflexive, transitive and compares any two installations that differ in
`(major, minor, priority, tag)`, and not being separated by it is transitive,
so it is a strict weak ordering. -/
theorem operator_lt_strict_total_order :
    (∀ a b : python_version, a.operator_lt b = true ↔
      (b.major < a.major ∨ (a.major = b.major ∧ b.minor < a.minor)) ∨
      (a.major = b.major ∧ a.minor = b.minor ∧ a.priority < b.priority) ∨
      (a.major = b.major ∧ a.minor = b.minor ∧ a.priority = b.priority ∧
        List.Lex (· < ·) a.tag b.tag)) ∧
    (∀ a : python_version, a.operator_lt a = false) ∧
    (∀ a b c : python_version, a.operator_lt b = true → b.operator_lt c = true →
      a.operator_lt c = true) ∧
    (∀ a b : python_version,
      (a.major, a.minor, a.priority, a.tag) ≠ (b.major, b.minor, b.priority, b.tag) →
      a.operator_lt b = true ∨ b.operator_lt a = true) ∧
    (∀ a b c : python_version,
      a.operator_lt b = false → b.operator_lt a = false →
      b.operator_lt c = false → c.operator_lt b = false →
      a.operator_lt c = false ∧ c.operator_lt a = false) := by
  refine ⟨?_, operator_lt_irrefl, operator_lt_trans, operator_lt_total, ?_⟩
  · intro a b
    rw [operator_lt_iff, wstring_lt_iff_lex]
  · intro a b c h1 h2 h3 h4
    exact ⟨not_after_trans c b a h3 h1, not_after_trans a b c h2 h4⟩

/-! ## Selection from the sorted candidates -/

theorem find_python_pred_iff (version tag : wstring) :
    (if tag.length < version.length then false
      else version == tag.take version.length) = true ↔ version <+: tag := by
  rw [List.prefix_iff_eq_take]
  split_ifs with h
  · simp only [Bool.false_eq_true, false_iff]
    intro e
    have hl := congrArg List.length e
    rw [List.length_take] at hl
    omega
  · simp

theorem find_python_eq (known : List python_version) (version : wstring) :
    find_python known version =
      known.find? (fun pv => decide (version <+: pv.tag)) := by
  unfold find_python
  congr 1
  funext pv
  rw [Bool.eq_iff_iff, find_python_pred_iff]
  simp

theorem std_sort_perm (l : List python_version) : (std_sort l).Perm l :=
  List.perm_insertionSort _ l

theorem orderedInsert_pairwise (a : python_version) (l : List python_version)
    (h : l.Pairwise (fun x y => y.operator_lt x = false)) :
    (l.orderedInsert (fun x y => y.operator_lt x = false) a).Pairwise
      (fun x y => y.operator_lt x = false) := by
  induction l with
  | nil => simp
  | cons b l ih =>
    rw [List.pairwise_cons] at h
    rw [List.orderedInsert]
    split_ifs with hab
    · rw [List.pairwise_cons, List.pairwise_cons]
      refine ⟨?_, h.1, h.2⟩
      intro c hc
      rcases List.mem_cons.mp hc with rfl | hc
      · exact hab
      · exact not_after_trans a b c hab (h.1 c hc)
    · rw [List.pairwise_cons]
      refine ⟨?_, ih h.2⟩
      intro c hc
      have hc2 := (List.perm_orderedInsert _ a l).subset hc
      rcases List.mem_cons.mp hc2 with rfl | hc2
      · have hba : b.operator_lt c = true := by
          rcases hb : b.operator_lt c with _ | _
          · exact absurd hb hab
          · rfl
        exact operator_lt_asymm _ _ hba
      · exact h.1 c hc2

theorem std_sort_pairwise (l : List python_version) :
    (std_sort l).Pairwise (fun x y => y.operator_lt x = false) := by
  induction l with
  | nil => simp [std_sort]
  | cons a l ih =>
    simp only [std_sort, List.insertionSort] at ih ⊢
    exact orderedInsert_pairwise a _ ih

/-- The first element with property `p` of any ordering `s` of `l` by
`operator<` is a member of `l` with `p` that no member of `l` with `p`
precedes. -/
theorem find_sorted_first (l s : List python_version) (p : python_version → Bool)
    (r : python_version) (hperm : s.Perm l)
    (hsorted : s.Pairwise (fun x y => y.operator_lt x = false))
    (h : s.find? p = some r) :
    r ∈ l ∧ p r = true ∧ ∀ c ∈ l, p c = true → c.operator_lt r = false := by
  induction s generalizing l with
  | nil => simp at h
  | cons a s ih =>
    rw [List.pairwise_cons] at hsorted
    rw [List.find?_cons] at h
    rcases hpa : p a with _ | _
    · rw [hpa] at h
      simp only at h
      obtain ⟨h1, h2, h3⟩ := ih s (List.Perm.refl s) hsorted.2 h
      refine ⟨hperm.subset (List.mem_cons_of_mem _ h1), h2, ?_⟩
      intro c hc hpc
      rcases List.mem_cons.mp (hperm.symm.subset hc) with rfl | hc
      · rw [hpa] at hpc; exact absurd hpc (by simp)
      · exact h3 c hc hpc
    · rw [hpa] at h
      simp only [Option.some.injEq] at h
      subst h
      refine ⟨hperm.subset (List.mem_cons_self _ _), hpa, ?_⟩
      intro c hc _
      rcases List.mem_cons.mp (hperm.symm.subset hc) with rfl | hc
      · exact operator_lt_irrefl _
      · exact hsorted.1 c hc

theorem find_sorted_none (l s : List python_version) (p : python_version → Bool)
    (hperm : s.Perm l) : s.find? p = none ↔ ∀ c ∈ l, p c = false := by
  rw [List.find?_eq_none]
  constructor
  · intro h c hc
    have := h c (hperm.symm.subset hc)
    simpa using this
  · intro h c hc
    have := h c (hperm.subset hc)
    simp [this]

theorem head_sorted_first (l s : List python_version) (r : python_version)
    (hperm : s.Perm l)
    (hsorted : s.Pairwise (fun x y => y.operator_lt x = false))
    (h : s.head? = some r) :
    r ∈ l ∧ ∀ c ∈ l, c.operator_lt r = false := by
  have hf : s.find? (fun _ => true) = some r := by
    cases s with
    | nil => simp at h
    | cons a s => simpa using h
  obtain ⟨h1, _, h3⟩ := find_sorted_first l s (fun _ => true) r hperm hsorted hf
  exact ⟨h1, fun c hc => h3 c hc rfl⟩

theorem find_suitable_version_nil (scan : Bool → Bool → List python_version) :
    find_suitable_version scan [] =
      (std_sort (scan false false)).head?.getD python_version.invalid := by
  simp only [find_suitable_version]
  simp only [List.length_nil, ge_iff_le, Nat.le_zero_eq, one_ne_zero, decide_False,
    Bool.false_and, Bool.false_eq_true, if_false, OfNat.ofNat_ne_zero, bne_self_eq_false]
  cases (std_sort (scan false false)).head? <;> rfl

/-- C7: with an empty request and a non-empty candidate list,
`find_suitable_version` returns a candidate such that no candidate has a
lexicographically greater `(major, minor)` and no candidate with the same
`(major, minor)` has a smaller priority number; with an empty candidate list
it returns the invalid sentinel. -/
theorem find_suitable_version_default (scan : Bool → Bool → List python_version) :
    (scan false false ≠ [] →
      find_suitable_version scan [] ∈ scan false false ∧
      (∀ c ∈ scan false false,
        ¬ ((find_suitable_version scan []).major < c.major ∨
          ((find_suitable_version scan []).major = c.major ∧
            (find_suitable_version scan []).minor < c.minor))) ∧
      (∀ c ∈ scan false false,
        c.major = (find_suitable_version scan []).major →
        c.minor = (find_suitable_version scan []).minor →
        (find_suitable_version scan []).priority ≤ c.priority)) ∧
    (scan false false = [] →
      find_suitable_version scan [] = python_version.invalid) := by
  rw [find_suitable_version_nil]
  constructor
  · intro hne
    rcases hs : (std_sort (scan false false)).head? with _ | r
    · exfalso
      rw [List.head?_eq_none_iff] at hs
      have hp := std_sort_perm (scan false false)
      rw [hs] at hp
      exact hne (List.Perm.nil_eq hp).symm
    · simp only [Option.getD_some]
      obtain ⟨h1, h2⟩ := head_sorted_first _ _ r (std_sort_perm _) (std_sort_pairwise _) hs
      refine ⟨h1, ?_, ?_⟩
      · intro c hc hgt
        have h3 := h2 c hc
        have h4 : c.operator_lt r = true := by
          rw [operator_lt_iff]
          left
          rcases hgt with g | g
          · left; exact g
          · right; exact ⟨g.1.symm, g.2⟩
        rw [h3] at h4
        exact absurd h4 (by simp)
      · intro c hc e1 e2
        by_contra hlt
        have h3 := h2 c hc
        have h4 : c.operator_lt r = true := by
          rw [operator_lt_iff]
          right; left
          exact ⟨e1, e2, by omega⟩
        rw [h3] at h4
        exact absurd h4 (by simp)
  · intro he
    rw [he]
    rfl

theorem suffix32_iff (version : wstring) :
    (decide (version.length ≥ 3) &&
      version.drop (version.length - 3) == "-32".toList) = true ↔
      "-32".toList <:+ version := by
  rw [List.suffix_iff_eq_drop]
  have h3 : "-32".toList.length = 3 := rfl
  rw [h3]
  simp only [Bool.and_eq_true, decide_eq_true_eq, beq_iff_eq]
  constructor
  · intro h; exact h.2.symm
  · intro h
    refine ⟨?_, h.symm⟩
    have hl := congrArg List.length h
    rw [h3, List.length_drop] at hl
    omega

/-- What `find_suitable_version` computes for a request `version` that does not
end in `w` or `W`, does not end in `-32` and is not empty. -/
theorem find_suitable_version_plain (scan : Bool → Bool → List python_version)
    (version : wstring) (hne : version ≠ [])
    (hw : version.getLast? ≠ some 'w' ∧ version.getLast? ≠ some 'W')
    (h32 : ¬ "-32".toList <:+ version) :
    find_suitable_version scan version =
      ((std_sort (scan false false)).find?
        (fun pv => decide (version <+: pv.tag))).getD python_version.invalid := by
  have hx : (decide (version.length ≥ 3) &&
      version.drop (version.length - 3) == "-32".toList) = false := by
    rw [← Bool.not_eq_true, suffix32_iff]; exact h32
  have hl : version.length ≠ 0 := fun h => hne (List.length_eq_zero.mp h)
  simp only [find_suitable_version]
  have hp : (decide (version.length ≥ 1) &&
      (version.getLast? == some 'w' || version.getLast? == some 'W')) = false := by
    simp [hw.1, hw.2]
  simp only [hp, Bool.false_eq_true, if_false, hx, Bool.false_and, find_python_eq]
  simp only [bne_iff_ne, ne_eq, hl, not_false_eq_true, if_true]
  cases (std_sort (scan false false)).find? (fun pv => decide (version <+: pv.tag)) <;> rfl

/-- C6: for a non-empty request ending neither in `w`/`W` nor in `-32`,
`find_suitable_version` returns a candidate whose tag has the request as a
literal prefix and which no candidate with that prefix precedes in the order
of `operator<`, and it returns the invalid sentinel (empty tag) exactly when
no candidate tag has the request as a prefix. With tags 3.9, 3.11 and 2.7 the
request 3 selects 3.11 and the request 9 selects nothing. -/
theorem find_suitable_version_by_tag (scan : Bool → Bool → List python_version)
    (version : wstring) (hne : version ≠ [])
    (hw : version.getLast? ≠ some 'w' ∧ version.getLast? ≠ some 'W')
    (h32 : ¬ "-32".toList <:+ version) :
    ((∃ c ∈ scan false false, version <+: c.tag) →
      find_suitable_version scan version ∈ scan false false ∧
      version <+: (find_suitable_version scan version).tag ∧
      ∀ c ∈ scan false false, version <+: c.tag →
        c.operator_lt (find_suitable_version scan version) = false) ∧
    (find_suitable_version scan version = python_version.invalid ↔
      ¬ ∃ c ∈ scan false false, version <+: c.tag) ∧
    ((find_suitable_version scan version).tag = [] ↔
      ¬ ∃ c ∈ scan false false, version <+: c.tag) ∧
    (find_suitable_version
        (fun _ _ => [sample "3.9" "C:\\Python39" 3 9 1, sample "3.11" "C:\\Python311" 3 11 2,
          sample "2.7" "C:\\Python27" 2 7 1]) "3".toList).tag = "3.11".toList ∧
    find_suitable_version
        (fun _ _ => [sample "3.9" "C:\\Python39" 3 9 1, sample "3.11" "C:\\Python311" 3 11 2,
          sample "2.7" "C:\\Python27" 2 7 1]) "9".toList = python_version.invalid := by
  refine ⟨?_, ?_, ?_, by decide, by decide⟩
  all_goals rw [find_suitable_version_plain scan version hne hw h32]
  all_goals
    rcases hs : (std_sort (scan false false)).find?
      (fun pv => decide (version <+: pv.tag)) with _ | r
  · intro ⟨c, hc, hpc⟩
    rw [find_sorted_none _ _ _ (std_sort_perm _)] at hs
    have := hs c hc
    simp [hpc] at this
  · intro _
    obtain ⟨h1, h2, h3⟩ :=
      find_sorted_first _ _ _ r (std_sort_perm _) (std_sort_pairwise _) hs
    simp only [hs, Option.getD_some]
    refine ⟨h1, by simpa using h2, ?_⟩
    intro c hc hpc
    exact h3 c hc (by simpa using hpc)
  · simp only [hs, Option.getD_none]
    rw [find_sorted_none _ _ _ (std_sort_perm _)] at hs
    refine ⟨fun _ => ?_, fun _ => ?_⟩
    swap
    · first | rfl | trivial
    intro ⟨c, hc, hpc⟩
    have := hs c hc
    simp [hpc] at this
  · obtain ⟨h1, h2, _⟩ :=
      find_sorted_first _ _ _ r (std_sort_perm _) (std_sort_pairwise _) hs
    simp only [hs, Option.getD_some]
    have h2 : version <+: r.tag := by simpa using h2
    constructor
    · intro e
      rw [e] at h2
      exact absurd (List.prefix_nil.mp h2) hne
    · intro hno
      exact absurd ⟨r, h1, h2⟩ hno
  · simp only [hs, Option.getD_none]
    rw [find_sorted_none _ _ _ (std_sort_perm _)] at hs
    refine ⟨fun _ => ?_, fun _ => rfl⟩
    intro ⟨c, hc, hpc⟩
    have := hs c hc
    simp [hpc] at this
  · obtain ⟨h1, h2, _⟩ :=
      find_sorted_first _ _ _ r (std_sort_perm _) (std_sort_pairwise _) hs
    simp only [hs, Option.getD_some]
    have h2 : version <+: r.tag := by simpa using h2
    constructor
    · intro e
      rw [e] at h2
      exact absurd (List.prefix_nil.mp h2) hne
    · intro hno
      exact absurd ⟨r, h1, h2⟩ hno

/-- What `find_suitable_version` computes for a request `base ++ "-32"`, with
or without a final `w`/`W`. -/
theorem find_suitable_version_x86 (scan : Bool → Bool → List python_version)
    (base w : wstring) (hbase : base ≠ [])
    (hw : w = [] ∨ w = ['w'] ∨ w = ['W']) :
    find_suitable_version scan (base ++ "-32".toList ++ w) =
      match (std_sort (scan (decide (w ≠ [])) true)).find?
          (fun pv => decide ((base ++ "-32".toList) <+: pv.tag)) with
      | some pv => pv
      | none =>
        ((std_sort (scan (decide (w ≠ [])) true)).find?
          (fun pv => decide (base <+: pv.tag))).getD python_version.invalid := by
  have e32 : "-32".toList = ['-', '3', '2'] := rfl
  have hl : 0 < base.length := List.length_pos.mpr hbase
  have hx : (decide ((base ++ "-32".toList).length ≥ 3) &&
      (base ++ "-32".toList).drop ((base ++ "-32".toList).length - 3) == "-32".toList) = true := by
    rw [suffix32_iff]; exact List.suffix_append _ _
  have hlen : (base ++ "-32".toList).length = base.length + 3 := by
    rw [List.length_append]; rfl
  have htake : (base ++ "-32".toList).take (base.length + 3 - 3) = base := by
    rw [Nat.add_sub_cancel, List.take_left']
    rfl
  have hp : ∀ v : wstring, v = base ++ "-32".toList ∨
      v = base ++ "-32".toList ++ ['w'] ∨ v = base ++ "-32".toList ++ ['W'] →
      ((if (decide (v.length ≥ 1) &&
          (v.getLast? == some 'w' || v.getLast? == some 'W')) = true
        then v.dropLast else v) = base ++ "-32".toList) ∧
      ((decide (v.length ≥ 1) &&
          (v.getLast? == some 'w' || v.getLast? == some 'W')) =
        decide (v ≠ base ++ "-32".toList)) := by
    intro v hv
    rcases hv with rfl | rfl | rfl
    · simp [e32]
    · simp [e32]
    · simp [e32]
  have hv : base ++ "-32".toList ++ w = base ++ "-32".toList ∨
      base ++ "-32".toList ++ w = base ++ "-32".toList ++ ['w'] ∨
      base ++ "-32".toList ++ w = base ++ "-32".toList ++ ['W'] := by
    rcases hw with rfl | rfl | rfl <;> simp
  have hd : decide (base ++ "-32".toList ++ w ≠ base ++ "-32".toList) = decide (w ≠ []) := by
    rcases hw with rfl | rfl | rfl <;> simp
  obtain ⟨h1, h2⟩ := hp _ hv
  simp only [find_suitable_version]
  rw [h1, h2, hd, hx]
  simp only [hlen, htake, find_python_eq]
  have h3 : (base.length + 3 != 0) = true := by simp
  have h4 : (true && decide (base.length + 3 > 3)) = true := by simp; omega
  simp only [h3, h4, if_true]
  rcases hs : (std_sort (scan (decide (w ≠ [])) true)).find?
      (fun pv => decide ((base ++ "-32".toList) <+: pv.tag)) with _ | r
  · rw [hs]
    cases (std_sort (scan (decide (w ≠ [])) true)).find?
      (fun pv => decide (base <+: pv.tag)) <;> rfl
  · rw [hs]

/-- C8: for a request `base ++ "-32"` with `base` non-empty, with or without a
final `w`/`W`, and the candidates scanned with the 32-bit filter: if some
candidate tag has `base ++ "-32"` as a prefix the result is such a candidate
that none of them precedes; otherwise, if some candidate tag has `base` as a
prefix the result is such a candidate that none of them precedes; otherwise
the result is the invalid sentinel. The request 3.9-32 with only the tag 3.9
registered returns that installation. -/
theorem find_suitable_version_x86_fallback (scan : Bool → Bool → List python_version)
    (base w : wstring) (hbase : base ≠ [])
    (hw : w = [] ∨ w = ['w'] ∨ w = ['W']) :
    ((∃ c ∈ scan (decide (w ≠ [])) true, (base ++ "-32".toList) <+: c.tag) →
      find_suitable_version scan (base ++ "-32".toList ++ w) ∈ scan (decide (w ≠ [])) true ∧
      (base ++ "-32".toList) <+:
        (find_suitable_version scan (base ++ "-32".toList ++ w)).tag ∧
      ∀ c ∈ scan (decide (w ≠ [])) true, (base ++ "-32".toList) <+: c.tag →
        c.operator_lt (find_suitable_version scan (base ++ "-32".toList ++ w)) = false) ∧
    ((¬ ∃ c ∈ scan (decide (w ≠ [])) true, (base ++ "-32".toList) <+: c.tag) →
      (∃ c ∈ scan (decide (w ≠ [])) true, base <+: c.tag) →
      find_suitable_version scan (base ++ "-32".toList ++ w) ∈ scan (decide (w ≠ [])) true ∧
      base <+: (find_suitable_version scan (base ++ "-32".toList ++ w)).tag ∧
      ∀ c ∈ scan (decide (w ≠ [])) true, base <+: c.tag →
        c.operator_lt (find_suitable_version scan (base ++ "-32".toList ++ w)) = false) ∧
    ((¬ ∃ c ∈ scan (decide (w ≠ [])) true, base <+: c.tag) →
      find_suitable_version scan (base ++ "-32".toList ++ w) = python_version.invalid) ∧
    find_suitable_version (fun _ _ => [sample "3.9" "C:\\Python39-32" 3 9 3])
      "3.9-32".toList = sample "3.9" "C:\\Python39-32" 3 9 3 := by
  refine ⟨?_, ?_, ?_, by decide⟩
  all_goals rw [find_suitable_version_x86 scan base w hbase hw]
  · intro ⟨c, hc, hpc⟩
    rcases hs : (std_sort (scan (decide (w ≠ [])) true)).find?
      (fun pv => decide ((base ++ "-32".toList) <+: pv.tag)) with _ | r
    · rw [find_sorted_none _ _ _ (std_sort_perm _)] at hs
      have hcs := hs c hc
      rw [decide_eq_false_iff_not] at hcs
      exact absurd hpc hcs
    · obtain ⟨h1, h2, h3⟩ :=
        find_sorted_first _ _ _ r (std_sort_perm _) (std_sort_pairwise _) hs
      simp only [hs]
      exact ⟨h1, by simpa using h2, fun c hc hpc => h3 c hc (by simpa using hpc)⟩
  · intro hno ⟨c, hc, hpc⟩
    have hs : (std_sort (scan (decide (w ≠ [])) true)).find?
        (fun pv => decide ((base ++ "-32".toList) <+: pv.tag)) = none := by
      rw [find_sorted_none _ _ _ (std_sort_perm _)]
      intro d hd
      rcases hpd : decide ((base ++ "-32".toList) <+: d.tag) with _ | _
      · rfl
      · exact absurd ⟨d, hd, by simpa using hpd⟩ hno
    rw [hs]
    rcases hb : (std_sort (scan (decide (w ≠ [])) true)).find?
      (fun pv => decide (base <+: pv.tag)) with _ | r
    · rw [find_sorted_none _ _ _ (std_sort_perm _)] at hb
      have hcb := hb c hc
      rw [decide_eq_false_iff_not] at hcb
      exact absurd hpc hcb
    · obtain ⟨h1, h2, h3⟩ :=
        find_sorted_first _ _ _ r (std_sort_perm _) (std_sort_pairwise _) hb
      simp only [hb, Option.getD_some]
      exact ⟨h1, by simpa using h2, fun c hc hpc => h3 c hc (by simpa using hpc)⟩
  · intro hno
    have hb : (std_sort (scan (decide (w ≠ [])) true)).find?
        (fun pv => decide (base <+: pv.tag)) = none := by
      rw [find_sorted_none _ _ _ (std_sort_perm _)]
      intro d hd
      rcases hpd : decide (base <+: d.tag) with _ | _
      · rfl
      · exact absurd ⟨d, hd, by simpa using hpd⟩ hno
    have hs : (std_sort (scan (decide (w ≠ [])) true)).find?
        (fun pv => decide ((base ++ "-32".toList) <+: pv.tag)) = none := by
      rw [find_sorted_none _ _ _ (std_sort_perm _)]
      intro d hd
      rcases hpd : decide ((base ++ "-32".toList) <+: d.tag) with _ | _
      · rfl
      · have hpd : (base ++ "-32".toList) <+: d.tag := by simpa using hpd
        exact absurd ⟨d, hd, (List.prefix_append _ _).trans hpd⟩ hno
    rw [hs, hb]
    rfl

/-! ## Deduplication in enum_reg -/

theorem operator_eq_iff (a b : python_version) :
    a.operator_eq b = true ↔ a.major = b.major ∧ a.minor = b.minor ∧ a.tag = b.tag := by
  simp [python_version.operator_eq, and_assoc]

theorem enum_reg_emplace_of_mem (versions : List python_version) (v : python_version)
    (h : ∃ x ∈ versions, x.operator_eq v = true) :
    enum_reg_emplace versions v = versions := by
  have hlt : versions.findIdx (fun x => x.operator_eq v) < versions.length :=
    List.findIdx_lt_length.mpr h
  simp only [enum_reg_emplace, List.findIdx_append, hlt, if_true, List.length_append,
    List.length_singleton, Nat.add_sub_cancel, List.dropLast_concat]
  have h1 : (versions.findIdx (fun x => x.operator_eq v) != versions.length + 1) = true := by
    rw [bne_iff_ne]; omega
  have h2 : (versions.findIdx (fun x => x.operator_eq v) != versions.length) = true := by
    rw [bne_iff_ne]; omega
  simp [h1, h2]

theorem enum_reg_emplace_of_not_mem (versions : List python_version) (v : python_version)
    (h : ¬ ∃ x ∈ versions, x.operator_eq v = true) :
    enum_reg_emplace versions v = versions ++ [v] := by
  have hlt : ¬ versions.findIdx (fun x => x.operator_eq v) < versions.length := by
    rw [List.findIdx_lt_length]; exact h
  have hv : v.operator_eq v = true := by rw [operator_eq_iff]; exact ⟨rfl, rfl, rfl⟩
  simp only [enum_reg_emplace, List.findIdx_append, hlt, if_false, List.length_append,
    List.length_singleton, Nat.add_sub_cancel, List.findIdx_cons, hv, cond_true, Nat.zero_add]
  simp

/-- C9: the append step of `enum_reg` leaves the list as it was when it already
holds an entry with the major, minor and tag of the new installation, and
appends the new installation otherwise; a list without two entries of equal
major, minor and tag stays so. Tag 3.9 found with priority 1 and then with
priority 2 leaves the priority 1 entry alone. -/
theorem enum_reg_emplace_dedup (versions : List python_version) (v : python_version) :
    ((∃ x ∈ versions, x.major = v.major ∧ x.minor = v.minor ∧ x.tag = v.tag) →
      enum_reg_emplace versions v = versions) ∧
    ((¬ ∃ x ∈ versions, x.major = v.major ∧ x.minor = v.minor ∧ x.tag = v.tag) →
      enum_reg_emplace versions v = versions ++ [v]) ∧
    (versions.Pairwise
        (fun a b => ¬ (a.major = b.major ∧ a.minor = b.minor ∧ a.tag = b.tag)) →
      (enum_reg_emplace versions v).Pairwise
        (fun a b => ¬ (a.major = b.major ∧ a.minor = b.minor ∧ a.tag = b.tag))) ∧
    enum_reg_emplace (enum_reg_emplace [] (sample "3.9" "C:\\Users\\u\\Python39" 3 9 1))
        (sample "3.9" "C:\\Python39" 3 9 2) =
      [sample "3.9" "C:\\Users\\u\\Python39" 3 9 1] := by
  have hiff : (∃ x ∈ versions, x.operator_eq v = true) ↔
      ∃ x ∈ versions, x.major = v.major ∧ x.minor = v.minor ∧ x.tag = v.tag := by
    constructor
    · rintro ⟨x, hx, hxv⟩; exact ⟨x, hx, (operator_eq_iff x v).mp hxv⟩
    · rintro ⟨x, hx, hxv⟩; exact ⟨x, hx, (operator_eq_iff x v).mpr hxv⟩
  refine ⟨?_, ?_, ?_, by decide⟩
  · intro h
    exact enum_reg_emplace_of_mem versions v (hiff.mpr h)
  · intro h
    exact enum_reg_emplace_of_not_mem versions v (fun h2 => h (hiff.mp h2))
  · intro hp
    by_cases h : ∃ x ∈ versions, x.major = v.major ∧ x.minor = v.minor ∧ x.tag = v.tag
    · rw [enum_reg_emplace_of_mem versions v (hiff.mpr h)]
      exact hp
    · rw [enum_reg_emplace_of_not_mem versions v (fun h2 => h (hiff.mp h2))]
      rw [List.pairwise_append]
      refine ⟨hp, List.pairwise_singleton _ _, ?_⟩
      intro a ha b hb hab
      rw [List.mem_singleton] at hb
      subst hb
      exact h ⟨a, ha, hab⟩

/-! ## Version extraction -/

/-- C3: when `args` has at least two elements and `args[1]` begins with `2` or
`3`, `extract_version` returns true with the whole of `args[1]` as tag and
leaves an empty slot 0 followed by the original `args[2..]`, one element fewer
than before, whatever `args[0]`, the files and the incoming tag are. -/
theorem extract_version_explicit_flag (read_first_line : wstring → Option wstring)
    (fuel : Nat) (a0 a1 : wstring) (rest : List wstring) (tag0 : wstring)
    (h : a1.head? = some '2' ∨ a1.head? = some '3') :
    extract_version read_first_line (fuel + 1) (a0 :: a1 :: rest) tag0 =
      some (true, [] :: (a0 :: a1 :: rest).drop 2, a1) ∧
    ([] :: (a0 :: a1 :: rest).drop 2).length + 1 = (a0 :: a1 :: rest).length := by
  have hl : a1.length ≥ 1 := by
    cases a1 with
    | nil => simp at h
    | cons c cs => simp
  constructor
  · rcases h with h | h <;> simp [extract_version, h, hl]
  · simp

/-- C2 (the code at the input of the claim): for `launcher.exe -3.9 script.py`
the first-argument check does not fire, because `-3.9` begins with `-`. With an
unreadable `script.py` the call returns false and changes nothing; with a
`script.py` whose shebang names python2.7 it returns the tag 2.7 and keeps the
`-3.9` token. -/
theorem extract_version_dash_flag :
    (∀ fuel tag0, extract_version (fun _ => none) (fuel + 1)
        ["launcher.exe".toList, "-3.9".toList, "script.py".toList] tag0 =
      some (false, ["launcher.exe".toList, "-3.9".toList, "script.py".toList], tag0)) ∧
    extract_version (fun _ => some "#!/usr/bin/env python2.7\n".toList) 2
        ["launcher.exe".toList, "-3.9".toList, "script.py".toList] [] =
      some (true, [[], "-3.9".toList, "script.py".toList], "2.7".toList) := by
  refine ⟨?_, by decide⟩
  intro fuel tag0
  have h1 : check_process_name "launcher.exe".toList = none := by decide
  have e1 : "launcher.exe".toList = ['l','a','u','n','c','h','e','r','.','e','x','e'] := rfl
  have e2 : "-3.9".toList = ['-','3','.','9'] := rfl
  have e3 : "script.py".toList = ['s','c','r','i','p','t','.','p','y'] := rfl
  rw [e1] at h1
  simp [extract_version, parse_shebang, e1, e2, e3, h1]

/-- The shebang branch of `extract_version`: when the first-argument check and
the process-name check give nothing and `filename` is the first argument after
slot 0 that is not empty and does not begin with `-`, the call is the call of
`parse_shebang` on `filename`. -/
theorem extract_version_shebang_step (read_first_line : wstring → Option wstring)
    (fuel : Nat) (a0 a1 : wstring) (rest : List wstring) (tag0 filename : wstring)
    (hflag : (decide (a1.length ≥ 1) &&
      (a1.head? == some '2' || a1.head? == some '3')) = false)
    (hname : check_process_name a0 = none)
    (hfind : ((a0 :: a1 :: rest).drop 1).find?
      (fun a => decide (a.length > 0) && a.head? != some '-') = some filename) :
    extract_version read_first_line (fuel + 1) (a0 :: a1 :: rest) tag0 =
      parse_shebang read_first_line (extract_version read_first_line fuel)
        filename tag0 (a0 :: a1 :: rest) := by
  simp only [extract_version, hflag]
  simp only [Bool.false_eq_true, if_false, hname, List.length_cons, ge_iff_le]
  simp only [List.drop_succ_cons, List.drop_zero] at hfind
  simp [hfind]


/-- C5: for `[prog, script]` where neither the first-argument check nor the
process-name check gives a tag and the buffer read from `script` begins with
the line `#!/usr/bin/env python3.6` ended by CR or LF, `extract_version`
returns true with tag 3.6 and the list `["", script]`, in which the token
`/usr/bin/env` does not occur. -/
theorem extract_version_shebang_env (read_first_line : wstring → Option wstring)
    (fuel : Nat) (prog script rest : wstring) (nl : Char) (tag0 : wstring)
    (hprog : check_process_name prog = none)
    (hscript : script ≠ [] ∧ script.head? ≠ some '-' ∧
      script.head? ≠ some '2' ∧ script.head? ≠ some '3')
    (hnl : nl = '\r' ∨ nl = '\n')
    (hline : read_first_line script =
      some ("#!/usr/bin/env python3.6".toList ++ nl :: rest)) :
    extract_version read_first_line (fuel + 2) [prog, script] tag0 =
      some (true, [[], script], "3.6".toList) := by
  obtain ⟨hs0, hs1, hs2, hs3⟩ := hscript
  have hlen : script.length > 0 := List.length_pos.mpr hs0
  have eline : "#!/usr/bin/env python3.6".toList =
      ['#','!','/','u','s','r','/','b','i','n','/','e','n','v',' ',
        'p','y','t','h','o','n','3','.','6'] := rfl
  have hendl : ∀ (c : Char) (r : List Char), c = '\r' ∨ c = '\n' →
      (("#!/usr/bin/env python3.6".toList ++ c :: r).takeWhile (· != '\r')).takeWhile
        (· != '\n') = "#!/usr/bin/env python3.6".toList := by
    intro c r hc
    rw [eline]
    rcases hc with rfl | rfl <;> simp [List.takeWhile]
  have hsplit : split_args (skip_shebang "#!/usr/bin/env python3.6".toList) =
      ["/usr/bin/env".toList, "python3.6".toList] := by decide
  have htmpl : parse_shebang_templates SHEBANG_TEMPLATES
      ["/usr/bin/env".toList, "python3.6".toList] = ["python3.6".toList] := by decide
  have hname : check_process_name "python3.6".toList = some "3.6".toList := by decide
  have hinner : extract_version read_first_line (fuel + 1) ["python3.6".toList] tag0 =
      some (true, [[]], "3.6".toList) := by
    simp only [extract_version, hname]
  have hhead : ("#!/usr/bin/env python3.6".toList ++ nl :: rest).length ≥ 2 ∧
      ("#!/usr/bin/env python3.6".toList ++ nl :: rest).get? 0 = some '#' ∧
      ("#!/usr/bin/env python3.6".toList ++ nl :: rest).get? 1 = some '!' := by
    rw [eline]; simp
  have hshebang : parse_shebang read_first_line (extract_version read_first_line (fuel + 1))
      script tag0 [prog, script] = some (true, [[], script], "3.6".toList) := by
    simp only [parse_shebang, hline]
    rw [hendl nl rest hnl, hsplit, htmpl, hinner]
    have hc : (decide (("#!/usr/bin/env python3.6".toList ++ nl :: rest).length < 2) ||
        ("#!/usr/bin/env python3.6".toList ++ nl :: rest).get? 0 != some '#' ||
        ("#!/usr/bin/env python3.6".toList ++ nl :: rest).get? 1 != some '!') = false := by
      rw [hhead.2.1, hhead.2.2]
      simp
    simp [hc]
  have hfirst : (decide (script.length ≥ 1) &&
      (script.head? == some '2' || script.head? == some '3')) = false := by
    simp [hs2, hs3]
  have hfind : ([prog, script].drop 1).find?
      (fun a => decide (a.length > 0) && a.head? != some '-') = some script := by
    have hb : (script.head? != some '-') = true := by simp [hs1]
    simp [List.find?, hlen, hb]
  rw [show fuel + 2 = (fuel + 1) + 1 from rfl,
    extract_version_shebang_step read_first_line (fuel + 1) prog script [] tag0 script
      hfirst hprog hfind, hshebang]

/-! ### The process-name check -/

theorem rfind_base_append_of_not_mem (c : Char) (xs ys : List Char) (h : c ∉ ys) :
    rfind_base c (xs ++ ys) = rfind_base c xs := by
  unfold rfind_base
  rw [List.reverse_append, List.dropWhile_append_of_pos]
  intro a ha
  rw [List.mem_reverse] at ha
  simp only [bne_iff_ne, ne_eq]
  intro e
  exact h (e ▸ ha)

theorem rfind_base_concat_self (c : Char) (xs : List Char) :
    rfind_base c (xs ++ [c]) = xs.length + 1 := by
  simp [rfind_base, List.dropWhile]

theorem rfind_base_le (c : Char) (xs : List Char) : rfind_base c xs ≤ xs.length := by
  unfold rfind_base
  have h := (List.dropWhile_suffix (fun x => x != c) (l := xs.reverse)).length_le
  rw [List.length_reverse] at h
  exact h

theorem toLower_cases (c : Char) :
    c.toLower = c ∨ (65 ≤ c.toNat ∧ c.toNat ≤ 90 ∧ c.toLower.toNat = c.toNat + 32) := by
  unfold Char.toLower
  simp only
  split_ifs with h
  · right
    refine ⟨h.1, h.2, ?_⟩
    obtain ⟨h1, h2⟩ := h
    generalize c.toNat = n at h1 h2
    interval_cases n <;> rfl
  · left; rfl

theorem toLower_eq_dot (c : Char) (h : c.toLower = '.') : c = '.' := by
  rcases toLower_cases c with e | ⟨h1, _, h3⟩
  · rw [← e]; exact h
  · rw [h] at h3
    have : ('.' : Char).toNat = 46 := rfl
    omega

theorem toLower_letter_ne (c d : Char) (h : c.toLower = d) (hd : 97 ≤ d.toNat) :
    c ≠ '.' ∧ c ≠ '/' ∧ c ≠ '\\' := by
  have hc : 65 ≤ c.toNat := by
    rcases toLower_cases c with e | ⟨h1, _, _⟩
    · rw [e] at h; rw [h]; omega
    · exact h1
  refine ⟨?_, ?_, ?_⟩
  · rintro rfl
    have : ('.' : Char).toNat = 46 := rfl
    omega
  · rintro rfl
    have : ('/' : Char).toNat = 47 := rfl
    omega
  · rintro rfl
    rcases toLower_cases '\\' with e | ⟨_, h2, _⟩
    · rw [e] at h
      rw [← h] at hd
      have : ('\\' : Char).toNat = 92 := rfl
      omega
    · have : ('\\' : Char).toNat = 92 := rfl
      omega

/-- A NUL-free text that `equal_ignore_case` accepts as `.exe` is a dot followed
by three characters that are neither a dot nor a path separator. -/
theorem exe_shape (ext : wstring) (hnul : '\x00' ∉ ext)
    (h : equal_ignore_case ".exe".toList ext = true) :
    ∃ c2 c3 c4 : Char, ext = ['.', c2, c3, c4] ∧
      (∀ c ∈ [c2, c3, c4], c ≠ '.' ∧ c ≠ '/' ∧ c ≠ '\\') := by
  have htw : ext.takeWhile (· != '\x00') = ext := by
    rw [List.takeWhile_eq_self_iff]
    intro a ha
    simp only [bne_iff_ne, ne_eq]
    intro e
    exact hnul (e ▸ ha)
  have hl : (".exe".toList.takeWhile (· != '\x00')).map Char.toLower = ['.', 'e', 'x', 'e'] := by
    decide
  unfold equal_ignore_case at h
  rw [htw, hl, beq_iff_eq] at h
  rcases ext with _ | ⟨c1, _ | ⟨c2, _ | ⟨c3, _ | ⟨c4, _ | ⟨c5, r⟩⟩⟩⟩⟩
  · simp at h
  · simp at h
  · simp at h
  · simp at h
  · simp only [List.map_cons, List.map_nil, List.cons.injEq, and_true] at h
    obtain ⟨h1, h2, h3, h4⟩ := h
    refine ⟨c2, c3, c4, ?_, ?_⟩
    · rw [toLower_eq_dot c1 h1.symm]
    · intro c hc
      simp only [List.mem_cons, List.mem_singleton, List.not_mem_nil, or_false] at hc
      rcases hc with rfl | rfl | rfl
      · exact toLower_letter_ne _ _ h2.symm (by decide)
      · exact toLower_letter_ne _ _ h3.symm (by decide)
      · exact toLower_letter_ne _ _ h4.symm (by decide)
  · simp at h

theorem drop_length_takeWhile (p : Char → Bool) (l : List Char) :
    l.drop (l.takeWhile p).length = l.dropWhile p := by
  induction l with
  | nil => rfl
  | cons x xs ih =>
    rcases hx : p x with _ | _
    · simp [List.takeWhile, List.dropWhile, hx]
    · simp [List.takeWhile, List.dropWhile, hx, ih]

theorem length_takeWhile_eq_iff (p : Char → Bool) (l : List Char) :
    (l.takeWhile p).length = l.length ↔ l.dropWhile p = [] := by
  induction l with
  | nil => simp
  | cons x xs ih =>
    rcases hx : p x with _ | _
    · simp [List.takeWhile, List.dropWhile, hx]
    · simp [List.takeWhile, List.dropWhile, hx, ih]

theorem takeWhile_congr_mem (p q : Char → Bool) (l : List Char)
    (h : ∀ x ∈ l, p x = q x) : l.takeWhile p = l.takeWhile q := by
  induction l with
  | nil => rfl
  | cons x xs ih =>
    have hx := h x (List.mem_cons_self _ _)
    have ih2 := ih (fun y hy => h y (List.mem_cons_of_mem _ hy))
    simp [List.takeWhile, hx, ih2]

theorem dropWhile_congr_mem (p q : Char → Bool) (l : List Char)
    (h : ∀ x ∈ l, p x = q x) : l.dropWhile p = l.dropWhile q := by
  induction l with
  | nil => rfl
  | cons x xs ih =>
    have hx := h x (List.mem_cons_self _ _)
    have ih2 := ih (fun y hy => h y (List.mem_cons_of_mem _ hy))
    simp [List.dropWhile, hx, ih2]

/-- The start of the window: with a directory part that is empty or ends in a
path separator and nothing after it that is a separator, `rstart` is the
length of the directory part. -/
theorem rstart_eq (pre tail : List Char)
    (hpre : pre = [] ∨ pre.getLast? = some '/' ∨ pre.getLast? = some '\\')
    (h1 : '/' ∉ tail) (h2 : '\\' ∉ tail) :
    rfind_base '\\' (pre ++ tail) +
      rfind_base '/' ((pre ++ tail).drop (rfind_base '\\' (pre ++ tail))) = pre.length := by
  rw [rfind_base_append_of_not_mem _ _ _ h2]
  have hle := rfind_base_le '\\' pre
  rw [List.drop_append_of_le_length hle, rfind_base_append_of_not_mem _ _ _ h1]
  rcases hpre with rfl | hp | hp
  · rfl
  · obtain ⟨ini, rfl⟩ : ∃ ini, pre = ini ++ ['/'] := by
      rcases List.eq_nil_or_concat pre with rfl | ⟨ini, c, rfl⟩
      · simp at hp
      · rw [List.concat_eq_append, List.getLast?_concat, Option.some.injEq] at hp
        exact ⟨ini, by rw [hp, List.concat_eq_append]⟩
    have hb : rfind_base '\\' (ini ++ ['/']) = rfind_base '\\' ini :=
      rfind_base_append_of_not_mem _ _ _ (by decide)
    have hle2 := rfind_base_le '\\' ini
    rw [hb, List.drop_append_of_le_length hle2, rfind_base_concat_self, List.length_drop,
      List.length_append, List.length_singleton]
    omega
  · obtain ⟨ini, rfl⟩ : ∃ ini, pre = ini ++ ['\\'] := by
      rcases List.eq_nil_or_concat pre with rfl | ⟨ini, c, rfl⟩
      · simp at hp
      · rw [List.concat_eq_append, List.getLast?_concat, Option.some.injEq] at hp
        exact ⟨ini, by rw [hp, List.concat_eq_append]⟩
    rw [rfind_base_concat_self, ← List.length_singleton '\\', ← List.length_append,
      List.drop_length]
    rfl

/-- The process-name check on `pre ++ base ++ ext`: the window is `base`. -/
theorem check_process_name_exe (pre base ext : wstring)
    (hnul : '\x00' ∉ pre ++ base ++ ext)
    (hpre : pre = [] ∨ pre.getLast? = some '/' ∨ pre.getLast? = some '\\')
    (hbase : '/' ∉ base ∧ '\\' ∉ base)
    (hext : equal_ignore_case ".exe".toList ext = true) :
    check_process_name (pre ++ base ++ ext) =
      if base.dropWhile (fun c => c != '2' && c != '3') = [] then none
      else some (base.dropWhile (fun c => c != '2' && c != '3')) := by
  have hnul_ext : '\x00' ∉ ext := fun h => hnul (List.mem_append_right _ h)
  have hnul_base : '\x00' ∉ base :=
    fun h => hnul (List.mem_append_left _ (List.mem_append_right _ h))
  obtain ⟨c2, c3, c4, hshape, hcs⟩ := exe_shape ext hnul_ext hext
  have hc : ∀ c ∈ [c2, c3, c4], c ≠ '.' ∧ c ≠ '/' ∧ c ≠ '\\' := hcs
  have hdot_tail : '.' ∉ [c2, c3, c4] := fun h => (hc _ h).1 rfl
  have hsl_ext : '/' ∉ ext := by
    rw [hshape]
    intro h
    rcases List.mem_cons.mp h with e | h
    · exact absurd e (by decide)
    · exact (hc _ h).2.1 rfl
  have hbs_ext : '\\' ∉ ext := by
    rw [hshape]
    intro h
    rcases List.mem_cons.mp h with e | h
    · exact absurd e (by decide)
    · exact (hc _ h).2.2 rfl
  have hdot : rfind_base '.' (pre ++ base ++ ext) = (pre ++ base).length + 1 := by
    rw [hshape, show pre ++ base ++ ['.', c2, c3, c4] = (pre ++ base ++ ['.']) ++ [c2, c3, c4] by simp,
      rfind_base_append_of_not_mem _ _ _ hdot_tail, rfind_base_concat_self]
  have hrs := rstart_eq pre (base ++ ext) hpre
    (by simp only [List.mem_append, not_or]; exact ⟨hbase.1, hsl_ext⟩)
    (by simp only [List.mem_append, not_or]; exact ⟨hbase.2, hbs_ext⟩)
  rw [← List.append_assoc] at hrs
  have hpred : ∀ x ∈ base, (!(x == '2' || x == '3' || x == '\x00')) = (x != '2' && x != '3') := by
    intro x hx
    have hx0 : (x == '\x00') = false := by
      rw [beq_eq_false_iff_ne]
      intro e
      exact hnul_base (e ▸ hx)
    rw [hx0]
    simp only [bne, Bool.or_false, Bool.not_or]
  unfold check_process_name
  simp only [hdot, hrs, Nat.add_sub_cancel, List.drop_left, hext, List.take_left, List.drop_left,
    Bool.and_true]
  have hne : ((pre ++ base).length + 1 != 0) = true := by simp
  simp only [hne, if_true]
  have ht : (pre ++ base ++ ext).take (pre ++ base).length = pre ++ base :=
    List.take_left (pre ++ base) ext
  have hdr : (pre ++ base).drop pre.length = base := List.drop_left pre base
  rw [ht, hdr]
  rw [takeWhile_congr_mem _ _ base hpred, drop_length_takeWhile]
  by_cases hd : base.dropWhile (fun c => c != '2' && c != '3') = []
  · have := (length_takeWhile_eq_iff (fun c => c != '2' && c != '3') base).mpr hd
    simp [hd, this]
  · have : ¬ (base.takeWhile (fun c => c != '2' && c != '3')).length = base.length :=
      fun e => hd ((length_takeWhile_eq_iff _ base).mp e)
    simp [hd, this]

/-- The process-name branch of `extract_version`: when the first-argument check
gives nothing and the process-name check gives `t`, the call returns true with
tag `t` and only slot 0 cleared. -/
theorem extract_version_process_name_step (read_first_line : wstring → Option wstring)
    (fuel : Nat) (a0 : wstring) (rest : List wstring) (tag0 t : wstring)
    (hflag : ∀ a1, rest.head? = some a1 → a1.head? ≠ some '2' ∧ a1.head? ≠ some '3')
    (hname : check_process_name a0 = some t) :
    extract_version read_first_line (fuel + 1) (a0 :: rest) tag0 =
      some (true, [] :: rest, t) := by
  cases rest with
  | nil => simp only [extract_version, hname]
  | cons a1 rest =>
    obtain ⟨h2, h3⟩ := hflag a1 rfl
    have hf : (decide (a1.length ≥ 1) &&
        (a1.head? == some '2' || a1.head? == some '3')) = false := by
      simp [h2, h3]
    simp only [extract_version, hf]
    simp only [Bool.false_eq_true, if_false, hname]

/-- C4: when `args[1]`, if present, does not begin with `2` or `3` and `args[0]`
has no NUL and is `pre ++ base ++ ext` with `pre` empty or ending in a path
separator, `base` free of path separators and `ext` equal to `.exe` ignoring
case, then: if `base` contains `2` or `3`, `extract_version` returns true, the
tag is `base` from its first `2` or `3` on, slot 0 is cleared and the other
arguments are unchanged; if `base` contains neither, the process-name check
gives no tag whatever `pre` holds, and with no further argument
`extract_version` returns false and changes nothing; in both cases the
process-name check gives what it gives without `pre`. `["python3.11.exe"]`
gives tag 3.11, and the name `C:\Python27\python.exe` gives no tag in the
process-name check. -/
theorem extract_version_process_name (read_first_line : wstring → Option wstring)
    (fuel : Nat) (pre base ext : wstring) (rest : List wstring) (tag0 : wstring)
    (hflag : ∀ a1, rest.head? = some a1 → a1.head? ≠ some '2' ∧ a1.head? ≠ some '3')
    (hnul : '\x00' ∉ pre ++ base ++ ext)
    (hpre : pre = [] ∨ pre.getLast? = some '/' ∨ pre.getLast? = some '\\')
    (hbase : '/' ∉ base ∧ '\\' ∉ base)
    (hext : equal_ignore_case ".exe".toList ext = true) :
    (('2' ∈ base ∨ '3' ∈ base) →
      extract_version read_first_line (fuel + 1) ((pre ++ base ++ ext) :: rest) tag0 =
        some (true, [] :: rest, base.dropWhile (fun c => c != '2' && c != '3'))) ∧
    (¬ ('2' ∈ base ∨ '3' ∈ base) →
      check_process_name (pre ++ base ++ ext) = none ∧
      extract_version read_first_line (fuel + 1) [pre ++ base ++ ext] tag0 =
        some (false, [pre ++ base ++ ext], tag0)) ∧
    check_process_name (pre ++ base ++ ext) = check_process_name (base ++ ext) ∧
    extract_version read_first_line (fuel + 1) ["python3.11.exe".toList] tag0 =
      some (true, [[]], "3.11".toList) ∧
    check_process_name "C:\\Python27\\python.exe".toList = none := by
  have hexe := check_process_name_exe pre base ext hnul hpre hbase hext
  refine ⟨?_, ?_, ?_, ?_, by decide⟩
  · intro hdigit
    apply extract_version_process_name_step _ _ _ _ _ _ hflag
    rw [hexe]
    have hd : base.dropWhile (fun c => c != '2' && c != '3') ≠ [] := by
      intro e
      rw [List.dropWhile_eq_nil_iff] at e
      rcases hdigit with h | h
      · have := e _ h
        simp at this
      · have := e _ h
        simp at this
    simp [hd]
  · intro hno
    have hd : base.dropWhile (fun c => c != '2' && c != '3') = [] := by
      rw [List.dropWhile_eq_nil_iff]
      intro x hx
      have h2 : x ≠ '2' := fun e => hno (Or.inl (e ▸ hx))
      have h3 : x ≠ '3' := fun e => hno (Or.inr (e ▸ hx))
      simp [h2, h3]
    have hn : check_process_name (pre ++ base ++ ext) = none := by
      rw [hexe, if_pos hd]
    refine ⟨hn, ?_⟩
    simp only [extract_version, hn]
    simp
  · have hnul2 : '\x00' ∉ ([] : wstring) ++ base ++ ext := by
      intro h
      apply hnul
      simp only [List.nil_append, List.mem_append] at h
      simp only [List.mem_append]
      rcases h with h | h
      · exact Or.inl (Or.inr h)
      · exact Or.inr h
    have h0 := check_process_name_exe [] base ext hnul2 (Or.inl rfl) hbase hext
    rw [List.nil_append] at h0
    rw [hexe, h0]
  · apply extract_version_process_name_step
    · intro a1 h; simp at h
    · decide

/-! ## Tokenizer and joiner -/

/-- A position returned by the scan lies inside the text, and behind its first
character when the scan starts with `finishedArg` cleared. -/
theorem find_next_arg_loop_bound (s : List Char) (q e f : Bool) (k : Nat)
    (h : find_next_arg_loop s q e f = some k) :
    k < s.length ∧ (f = false → 1 ≤ k) := by
  induction s generalizing q e f k with
  | nil => simp [find_next_arg_loop] at h
  | cons c cs ih =>
    rw [find_next_arg_loop] at h
    split_ifs at h with h1 h2 h3 h4
    · simp only [Option.some.injEq] at h
      subst h
      refine ⟨by simp, ?_⟩
      intro hf
      rw [hf] at h1
      simp at h1
    all_goals
      rw [Option.map_eq_some'] at h
      obtain ⟨k1, hk1, rfl⟩ := h
      have := (ih _ _ _ _ hk1).1
      exact ⟨by simp only [List.length_cons]; omega, fun _ => by omega⟩

/-- The iteration bound of `split_args_loop` is never reached: any bound above
the length of the text gives the same result. -/
theorem split_args_loop_fuel (fuel1 fuel2 : Nat) (s : List Char) (res : List wstring)
    (h1 : s.length < fuel1) (h2 : s.length < fuel2) :
    split_args_loop fuel1 s res = split_args_loop fuel2 s res := by
  induction fuel1 generalizing fuel2 s res with
  | zero => omega
  | succ f1 ih =>
    obtain ⟨f2, rfl⟩ : ∃ f2, fuel2 = f2 + 1 := ⟨fuel2 - 1, by omega⟩
    rw [split_args_loop, split_args_loop]
    rcases hk : find_next_arg s with _ | k
    · rfl
    · obtain ⟨hlt, hge⟩ := find_next_arg_loop_bound s false false false k hk
      have hge := hge rfl
      simp only
      split_ifs <;> first
        | rfl
        | (apply ih <;> (rw [List.length_drop]; omega))

theorem getLast?_cons_of_ne_nil (x : Char) (xs : List Char) (h : xs ≠ []) :
    (x :: xs).getLast? = xs.getLast? := by
  cases xs with
  | nil => exact absurd rfl h
  | cons y ys => rw [List.getLast?_cons_cons]

/-- Scanning characters that hold no double quote, and no space unless inside
quotes, never finishes an argument; the scan goes on behind them with the same
quote flag, and with the escaping flag cleared when they do not end in a
backslash. -/
theorem find_next_arg_loop_skip (xs ys : List Char) (q e : Bool)
    (hq : ∀ c ∈ xs, c ≠ '"') (hs : q = false → ∀ c ∈ xs, c ≠ ' ') :
    ∃ e1 : Bool,
      find_next_arg_loop (xs ++ ys) q e false =
        (find_next_arg_loop ys q e1 false).map (· + xs.length) ∧
      (xs = [] → e1 = e) ∧
      (xs ≠ [] → xs.getLast? ≠ some '\\' → e1 = false) := by
  induction xs generalizing e with
  | nil =>
    refine ⟨e, ?_, fun _ => rfl, fun h => absurd rfl h⟩
    have hid : (fun x : Nat => x + ([] : List Char).length) = id := by funext x; simp
    rw [List.nil_append, hid, Option.map_id]
    rfl
  | cons x xs ih =>
    have hxq : x ≠ '"' := hq x (List.mem_cons_self _ _)
    have hq2 : ∀ c ∈ xs, c ≠ '"' := fun c hc => hq c (List.mem_cons_of_mem _ hc)
    have hs2 : q = false → ∀ c ∈ xs, c ≠ ' ' :=
      fun hqf c hc => hs hqf c (List.mem_cons_of_mem _ hc)
    have hsp : (x == ' ' && !e && !q) = false := by
      cases q with
      | true => simp
      | false =>
        have := hs rfl x (List.mem_cons_self _ _)
        simp [this]
    have hstep : ∀ e2 : Bool,
        (∃ e1 : Bool,
          (find_next_arg_loop (xs ++ ys) q e2 false).map (· + 1) =
            (find_next_arg_loop ys q e1 false).map (· + (x :: xs).length) ∧
          (xs = [] → e1 = e2) ∧ (xs ≠ [] → xs.getLast? ≠ some '\\' → e1 = false)) := by
      intro e2
      obtain ⟨e1, h1, h2, h3⟩ := ih e2 hq2 hs2
      refine ⟨e1, ?_, h2, h3⟩
      rw [h1, Option.map_map]
      congr 1
    by_cases hb : x = '\\'
    · obtain ⟨e1, h1, h2, h3⟩ := hstep (!e)
      refine ⟨e1, ?_, fun h => absurd h (List.cons_ne_nil _ _), ?_⟩
      · rw [List.cons_append, find_next_arg_loop]
        simp only [Bool.false_and, Bool.false_eq_true, if_false, hb]
        simpa using h1
      · intro _ hl
        by_cases hx : xs = []
        · subst hx; subst hb
          simp at hl
        · apply h3 hx
          rw [getLast?_cons_of_ne_nil x xs hx] at hl
          exact hl
    · obtain ⟨e1, h1, h2, h3⟩ := hstep false
      refine ⟨e1, ?_, fun h => absurd h (List.cons_ne_nil _ _), ?_⟩
      · rw [List.cons_append, find_next_arg_loop]
        have hxq2 : (x == '"') = false := by simp [hxq]
        have hb2 : (x == '\\') = false := by simp [hb]
        simp only [Bool.false_and, Bool.false_eq_true, if_false, hxq2, hb2, hsp]
        exact h1
      · intro _ hl
        by_cases hx : xs = []
        · exact h2 hx
        · apply h3 hx
          rw [getLast?_cons_of_ne_nil x xs hx] at hl
          exact hl

theorem find_next_arg_loop_no_space (xs : List Char) (q e : Bool)
    (h : ∀ c ∈ xs, c ≠ ' ') : find_next_arg_loop xs q e false = none := by
  induction xs generalizing q e with
  | nil => rfl
  | cons x xs ih =>
    have hx : (x == ' ') = false := by simp [h x (List.mem_cons_self _ _)]
    have ih2 := fun q e => ih q e (fun c hc => h c (List.mem_cons_of_mem _ hc))
    rw [find_next_arg_loop]
    simp only [Bool.false_and, Bool.false_eq_true, if_false, hx, ih2, ite_self]
    rfl

/-- What `join_args` writes for a token that does not end in a backslash: the
token between two double quotes when it is empty or holds a space, the token
itself otherwise. -/
theorem join_args_arg_cases (t : wstring) (hl : t.getLast? ≠ some '\\') :
    ((t = [] ∨ ' ' ∈ t) ∧ join_args_arg t = '"' :: t ++ ['"']) ∨
    (t ≠ [] ∧ ' ' ∉ t ∧ join_args_arg t = t) := by
  unfold join_args_arg
  cases t with
  | nil => left; exact ⟨Or.inl rfl, rfl⟩
  | cons x xs =>
    by_cases hsp : ' ' ∈ x :: xs
    · left
      refine ⟨Or.inr hsp, ?_⟩
      have hc : (x :: xs).contains ' ' = true := by
        rw [List.contains_iff_exists_mem_beq]
        exact ⟨' ', hsp, by simp⟩
      have hb : ((x :: xs).getLast? == some '\\') = false := by simpa using hl
      simp only [List.isEmpty_cons, Bool.false_eq_true, if_false, hc, if_true, hb,
        List.append_nil]
    · right
      refine ⟨List.cons_ne_nil _ _, hsp, ?_⟩
      have hc : (x :: xs).contains ' ' = false := by
        rw [← Bool.not_eq_true, List.contains_iff_exists_mem_beq]
        rintro ⟨a, ha, hab⟩
        rw [beq_iff_eq] at hab
        exact hsp (hab ▸ ha)
      simp only [List.isEmpty_cons, Bool.false_eq_true, if_false, hc]

/-- Scanning what `join_args` wrote for a token free of double quotes and not
ending in a backslash leaves all three flags of `find_next_arg` cleared. -/
theorem find_next_arg_loop_arg (t ys : List Char)
    (hq : ∀ c ∈ t, c ≠ '"') (hl : t.getLast? ≠ some '\\') :
    find_next_arg_loop (join_args_arg t ++ ys) false false false =
      (find_next_arg_loop ys false false false).map (· + (join_args_arg t).length) := by
  rcases join_args_arg_cases t hl with ⟨_, hw⟩ | ⟨hne, hsp, hw⟩
  · rw [hw]
    obtain ⟨e1, h1, h2, h3⟩ := find_next_arg_loop_skip t ('"' :: ys) true false hq
      (fun h => absurd h (by simp))
    have he1 : e1 = false := by
      by_cases ht : t = []
      · exact h2 ht
      · exact h3 ht hl
    subst he1
    simp only [List.cons_append, List.append_assoc, List.singleton_append, List.nil_append]
    rw [find_next_arg_loop]
    simp only [Bool.false_and, Bool.false_eq_true, if_false, beq_self_eq_true, Bool.not_false,
      Bool.and_self, if_true, Bool.not_true]
    rw [h1, find_next_arg_loop]
    simp only [Bool.false_and, Bool.false_eq_true, if_false, beq_self_eq_true, Bool.not_false,
      Bool.and_self, if_true, Bool.not_true, Option.map_map]
    congr 1
    funext k
    simp only [Function.comp, List.length_cons, List.length_append, List.length_singleton,
      List.singleton_append, List.length_nil]
    omega
  · rw [hw]
    obtain ⟨e1, h1, _, h3⟩ := find_next_arg_loop_skip t ys false false hq
      (fun _ c hc e => hsp (e ▸ hc))
    rw [h1, h3 hne hl]

/-- The next argument after what `join_args` wrote for a token, followed by one
space and a text that does not begin with a space, starts behind that space. -/
theorem find_next_arg_arg (t : List Char) (c : Char) (rest : List Char)
    (hq : ∀ c ∈ t, c ≠ '"') (hl : t.getLast? ≠ some '\\') (hc : c ≠ ' ') :
    find_next_arg (join_args_arg t ++ ' ' :: c :: rest) =
      some ((join_args_arg t).length + 1) := by
  unfold find_next_arg
  rw [find_next_arg_loop_arg t _ hq hl, find_next_arg_loop]
  have h1 : (c != ' ') = true := by simp [hc]
  simp only [Bool.false_and, Bool.false_eq_true, if_false]
  have h2 : ((' ' : Char) == '"') = false := by decide
  have h3 : ((' ' : Char) == '\\') = false := by decide
  simp only [h2, h3, Bool.false_and, Bool.false_eq_true, if_false, beq_self_eq_true,
    Bool.not_false, Bool.and_self, if_true]
  rw [find_next_arg_loop]
  simp [h1, Nat.add_comm]

theorem get?_length_append (t : List Char) (x : Char) (ys : List Char) :
    (t ++ x :: ys).get? t.length = some x := by
  induction t with
  | nil => rfl
  | cons y t ih => simpa using ih

theorem get?_pred_length_append (t ys : List Char) (n : Nat) (h : t.length = n + 1) :
    (t ++ ys).get? n = t.getLast? := by
  induction t generalizing n with
  | nil => simp at h
  | cons y t ih =>
    cases t with
    | nil =>
      simp only [List.length_singleton] at h
      have : n = 0 := by omega
      subst this
      rfl
    | cons z t =>
      obtain ⟨m, rfl⟩ : ∃ m, n = m + 1 := ⟨n - 1, by simp at h; omega⟩
      rw [List.getLast?_cons_cons, List.cons_append, List.get?_cons_succ]
      apply ih
      simp at h ⊢
      omega

/-- One iteration of the loop of `split_args` on what `join_args` wrote for a
token `t`, a space and a text that does not begin with a space: the token `t`
is appended and the loop goes on with that text. -/
theorem split_args_loop_arg (fuel : Nat) (t : List Char) (c : Char) (rest : List Char)
    (res : List wstring)
    (hq : ∀ c ∈ t, c ≠ '"') (hl : t.getLast? ≠ some '\\') (hc : c ≠ ' ') :
    split_args_loop (fuel + 1) (join_args_arg t ++ ' ' :: c :: rest) res =
      split_args_loop fuel (c :: rest) (res ++ [t]) := by
  rw [split_args_loop, find_next_arg_arg t c rest hq hl hc]
  simp only [Nat.add_sub_cancel]
  rcases join_args_arg_cases t hl with ⟨_, hw⟩ | ⟨hne, hsp, hw⟩
  · have hs : join_args_arg t ++ ' ' :: c :: rest = '"' :: (t ++ '"' :: ' ' :: c :: rest) := by
      rw [hw]; simp
    have hlen : (join_args_arg t).length = t.length + 1 + 1 := by
      rw [hw]; simp
    have hg : ('"' :: (t ++ '"' :: ' ' :: c :: rest)).get? (t.length + 1) = some '"' := by
      rw [List.get?_cons_succ]; exact get?_length_append t _ _
    have htrim : trim_end ('"' :: (t ++ '"' :: ' ' :: c :: rest)) (t.length + 1 + 1) =
        t.length + 1 + 1 := by
      rw [trim_end, hg]
      rfl
    rw [hs, hlen, htrim]
    have htake : ((('"' : Char) :: (t ++ '"' :: ' ' :: c :: rest)).take (t.length + 1)).drop 1 = t := by
      rw [List.take_succ_cons, List.drop_succ_cons, List.drop_zero, List.take_left]
    have hdrop : (('"' : Char) :: (t ++ '"' :: ' ' :: c :: rest)).drop (t.length + 1 + 1 + 1) =
        c :: rest := by
      rw [List.drop_succ_cons]
      rw [show t ++ '"' :: ' ' :: c :: rest = (t ++ ['"', ' ']) ++ c :: rest by simp]
      apply List.drop_left'
      simp
    simp only [Nat.add_sub_cancel, hg, htake, hdrop, List.head?_cons]
    simp
  · have hlen : t.length = (t.length - 1) + 1 := by
      have := List.length_pos.mpr hne
      omega
    have hlast : ∃ z, t.getLast? = some z ∧ z ≠ ' ' := by
      rcases hz : t.getLast? with _ | z
      · rw [List.getLast?_eq_none_iff] at hz; exact absurd hz hne
      · exact ⟨z, rfl, fun e => hsp (e ▸ List.mem_of_getLast?_eq_some hz)⟩
    obtain ⟨z, hz1, hz2⟩ := hlast
    have hg : (t ++ ' ' :: c :: rest).get? (t.length - 1) = some z := by
      rw [get?_pred_length_append t _ _ hlen, hz1]
    have htrim : trim_end (t ++ ' ' :: c :: rest) t.length = t.length := by
      rw [hlen, trim_end, hg, ← hlen]
      have : (some z == some ' ') = false := by simp [hz2]
      rw [this]
      rfl
    have hhead : (t ++ ' ' :: c :: rest).head? ≠ some '"' := by
      cases t with
      | nil => exact absurd rfl hne
      | cons x xs =>
        simp only [List.cons_append, List.head?_cons, ne_eq, Option.some.injEq]
        exact hq x (List.mem_cons_self _ _)
    have hh2 : ((t ++ ' ' :: c :: rest).head? == some '"') = false := by simpa using hhead
    have hdrop : (t ++ ' ' :: c :: rest).drop (t.length + 1) = c :: rest := by
      rw [show t ++ ' ' :: c :: rest = (t ++ [' ']) ++ c :: rest by simp]
      apply List.drop_left'
      simp
    have hpos : (t.length == 0) = false := by
      have hp := List.length_pos.mpr hne
      rw [beq_eq_false_iff_ne]
      omega
    rw [hw, htrim]
    simp only [hpos, hh2, Bool.false_eq_true, if_false, List.take_left, hdrop]

theorem join_args_arg_raw (t : wstring) (hne : t ≠ []) (hsp : ' ' ∉ t) :
    join_args_arg t = t := by
  unfold join_args_arg
  cases t with
  | nil => exact absurd rfl hne
  | cons x xs =>
    have hc : (x :: xs).contains ' ' = false := by
      rw [← Bool.not_eq_true, List.contains_iff_exists_mem_beq]
      rintro ⟨a, ha, hab⟩
      rw [beq_iff_eq] at hab
      exact hsp (hab ▸ ha)
    simp only [List.isEmpty_cons, Bool.false_eq_true, if_false, hc]

theorem join_args_loop_false (l : List wstring) (h : l ≠ []) :
    join_args_loop false l = ' ' :: join_args_loop true l := by
  cases l with
  | nil => exact absurd rfl h
  | cons a rest => simp [join_args_loop]

/-- The text `join_args` writes for tokens of the shape considered does not
begin with a space. -/
theorem join_args_loop_head (tokens : List wstring) (last : wstring)
    (hmid : ∀ t ∈ tokens, '"' ∉ t ∧ t.getLast? ≠ some '\\')
    (hlast : last ≠ [] ∧ ' ' ∉ last) :
    ∃ c r, join_args_loop true (tokens ++ [last]) = c :: r ∧ c ≠ ' ' := by
  cases tokens with
  | nil =>
    obtain ⟨hne, hsp⟩ := hlast
    cases last with
    | nil => exact absurd rfl hne
    | cons x xs =>
      refine ⟨x, xs, ?_, fun e => hsp (e ▸ List.mem_cons_self _ _)⟩
      simp [join_args_loop, join_args_arg_raw (x :: xs) hne hsp]
  | cons t ts =>
    obtain ⟨_, hl⟩ := hmid t (List.mem_cons_self _ _)
    rcases join_args_arg_cases t hl with ⟨_, hw⟩ | ⟨hne, hsp, hw⟩
    · refine ⟨'"', (t ++ ['"']) ++ join_args_loop false (ts ++ [last]), ?_, by decide⟩
      rw [List.cons_append, join_args_loop, hw]
      simp only [if_true, List.nil_append, List.cons_append]
    · cases t with
      | nil => exact absurd rfl hne
      | cons x xs =>
        refine ⟨x, xs ++ join_args_loop false (ts ++ [last]), ?_,
          fun e => hsp (e ▸ List.mem_cons_self _ _)⟩
        rw [List.cons_append, join_args_loop, hw]
        simp only [if_true, List.nil_append, List.cons_append]

theorem split_args_loop_join (tokens : List wstring) (last : wstring)
    (hmid : ∀ t ∈ tokens, '"' ∉ t ∧ t.getLast? ≠ some '\\')
    (hlast : last ≠ [] ∧ ' ' ∉ last) (res : List wstring) (fuel : Nat)
    (hfuel : (join_args_loop true (tokens ++ [last])).length < fuel) :
    split_args_loop fuel (join_args_loop true (tokens ++ [last])) res =
      res ++ (tokens ++ [last]) := by
  induction tokens generalizing res fuel with
  | nil =>
    obtain ⟨f, rfl⟩ : ∃ f, fuel = f + 1 := ⟨fuel - 1, by omega⟩
    have hj : join_args_loop true ([] ++ [last]) = last := by
      simp [join_args_loop, join_args_arg_raw last hlast.1 hlast.2]
    rw [hj, split_args_loop]
    have hn : find_next_arg last = none :=
      find_next_arg_loop_no_space last false false (fun c hc e => hlast.2 (e ▸ hc))
    rw [hn]
    rfl
  | cons t ts ih =>
    obtain ⟨f, rfl⟩ : ∃ f, fuel = f + 1 := ⟨fuel - 1, by omega⟩
    have hmid2 : ∀ t ∈ ts, '"' ∉ t ∧ t.getLast? ≠ some '\\' :=
      fun u hu => hmid u (List.mem_cons_of_mem _ hu)
    obtain ⟨hq, hl⟩ := hmid t (List.mem_cons_self _ _)
    obtain ⟨c, r, hcr, hc⟩ := join_args_loop_head ts last hmid2 hlast
    have hj : join_args_loop true ((t :: ts) ++ [last]) =
        join_args_arg t ++ ' ' :: c :: r := by
      rw [List.cons_append, join_args_loop, join_args_loop_false _ (by simp), hcr]
      simp
    rw [hj] at hfuel ⊢
    rw [split_args_loop_arg f t c r res (fun d hd e => hq (e ▸ hd)) hl hc, ← hcr]
    rw [ih hmid2 (res ++ [t]) f]
    · simp
    · rw [hcr]
      simp only [List.length_append, List.length_cons] at hfuel ⊢
      omega

/-- C1 (amended): for tokens of which all but the last hold no double quote and
do not end in a backslash, and the last is non-empty and holds no space,
`split_args (join_args tokens)` gives the tokens back. -/
theorem split_join_round_trip (tokens : List wstring) (last : wstring)
    (hmid : ∀ t ∈ tokens, '"' ∉ t ∧ t.getLast? ≠ some '\\')
    (hlast : last ≠ [] ∧ ' ' ∉ last) :
    split_args (join_args (tokens ++ [last])) = tokens ++ [last] := by
  unfold split_args join_args
  rw [split_args_loop_join tokens last hmid hlast [] _ (Nat.lt_succ_self _)]
  rfl

theorem split_join_round_trip_witness :
    split_args (join_args (["py.exe".toList, "a b".toList, [], "c\\d".toList] ++
        ["\"x\\".toList])) =
      ["py.exe".toList, "a b".toList, [], "c\\d".toList] ++ ["\"x\\".toList] :=
  split_join_round_trip ["py.exe".toList, "a b".toList, [], "c\\d".toList] "\"x\\".toList
    (by decide) (by decide)

/-- C1 (as stated) fails: a last token holding a space keeps its quotes, an
empty last token comes back as two quotes, a token holding a double quote
swallows the following space, a quoted token ending in a backslash comes back
with two, and an unquoted token ending in a backslash is merged with the next
one. -/
theorem split_join_round_trip_fails :
    split_args (join_args ["a b".toList]) = ["\"a b\"".toList] ∧
    split_args (join_args [[]]) = ["\"\"".toList] ∧
    split_args (join_args ["a\"b".toList, "c".toList]) = ["a\"b c".toList] ∧
    split_args (join_args ["a b\\".toList, "c".toList]) = ["a b\\\\".toList, "c".toList] ∧
    split_args (join_args ["a\\".toList, "b".toList]) = ["a\\ b".toList] := by
  decide

/-! ## Instances at concrete inputs -/

theorem extract_version_explicit_flag_witness :
    extract_version (fun _ => none) 1
        ["py.exe".toList, "3.9-32".toList, "-u".toList, "s.py".toList] [] =
      some (true, [[], "-u".toList, "s.py".toList], "3.9-32".toList) :=
  (extract_version_explicit_flag (fun _ => none) 0 "py.exe".toList "3.9-32".toList
    ["-u".toList, "s.py".toList] [] (by decide)).1

theorem extract_version_process_name_witness :
    extract_version (fun _ => none) 1
        [("C:\\Python27\\".toList ++ "python3.9".toList ++ ".EXE".toList), "-m".toList,
          "pip".toList] [] =
      some (true, [[], "-m".toList, "pip".toList], "3.9".toList) ∧
    check_process_name ("C:/Python27/".toList ++ "python".toList ++ ".exe".toList) = none :=
  ⟨(extract_version_process_name (fun _ => none) 0 "C:\\Python27\\".toList
      "python3.9".toList ".EXE".toList ["-m".toList, "pip".toList] [] (by decide) (by decide)
      (by decide) (by decide) (by decide)).1 (by decide),
   ((extract_version_process_name (fun _ => none) 0 "C:/Python27/".toList
      "python".toList ".exe".toList [] [] (by decide) (by decide)
      (by decide) (by decide) (by decide)).2.1 (by decide)).1⟩

theorem extract_version_shebang_env_witness :
    extract_version
        (fun _ => some ("#!/usr/bin/env python3.6".toList ++ '\n' :: "print(1)".toList)) 2
        ["py.exe".toList, "s.py".toList] [] =
      some (true, [[], "s.py".toList], "3.6".toList) :=
  extract_version_shebang_env
    (fun _ => some ("#!/usr/bin/env python3.6".toList ++ '\n' :: "print(1)".toList)) 0
    "py.exe".toList "s.py".toList "print(1)".toList '\n' [] (by decide) (by decide)
    (by decide) rfl

theorem find_suitable_version_by_tag_witness :
    find_suitable_version
        (fun _ _ => [sample "3.9" "C:\\Python39" 3 9 1, sample "3.11" "C:\\Python311" 3 11 2,
          sample "2.7" "C:\\Python27" 2 7 1]) "3.".toList ∈
      [sample "3.9" "C:\\Python39" 3 9 1, sample "3.11" "C:\\Python311" 3 11 2,
        sample "2.7" "C:\\Python27" 2 7 1] ∧
    "3.".toList <+: (find_suitable_version
        (fun _ _ => [sample "3.9" "C:\\Python39" 3 9 1, sample "3.11" "C:\\Python311" 3 11 2,
          sample "2.7" "C:\\Python27" 2 7 1]) "3.".toList).tag ∧
    ∀ c ∈ [sample "3.9" "C:\\Python39" 3 9 1, sample "3.11" "C:\\Python311" 3 11 2,
        sample "2.7" "C:\\Python27" 2 7 1], "3.".toList <+: c.tag →
      c.operator_lt (find_suitable_version
        (fun _ _ => [sample "3.9" "C:\\Python39" 3 9 1, sample "3.11" "C:\\Python311" 3 11 2,
          sample "2.7" "C:\\Python27" 2 7 1]) "3.".toList) = false :=
  (find_suitable_version_by_tag
    (fun _ _ => [sample "3.9" "C:\\Python39" 3 9 1, sample "3.11" "C:\\Python311" 3 11 2,
      sample "2.7" "C:\\Python27" 2 7 1]) "3.".toList (by decide) (by decide) (by decide)).1
    ⟨sample "3.9" "C:\\Python39" 3 9 1, by decide, ⟨"9".toList, rfl⟩⟩

theorem find_suitable_version_x86_fallback_witness :
    find_suitable_version (fun _ x86 => if x86 then [sample "3.9" "C:\\Python39-32" 3 9 3]
        else [sample "3.9" "C:\\Python39" 3 9 2, sample "3.9" "C:\\Python39-32" 3 9 3])
      ("3.9".toList ++ "-32".toList ++ ['w']) ∈ [sample "3.9" "C:\\Python39-32" 3 9 3] :=
  ((find_suitable_version_x86_fallback
    (fun _ x86 => if x86 then [sample "3.9" "C:\\Python39-32" 3 9 3]
      else [sample "3.9" "C:\\Python39" 3 9 2, sample "3.9" "C:\\Python39-32" 3 9 3])
    "3.9".toList ['w'] (by decide) (by decide)).2.1 (by decide)
    ⟨sample "3.9" "C:\\Python39-32" 3 9 3, by decide, ⟨[], rfl⟩⟩).1

/-! ## The last token of split_args -/

/-- C11 (the code at the inputs of the claim): a quoted token followed by
another token loses its quotes, but the last token of the line is appended as
it stands: `c "a b"` gives `c` and `"a b"` with its quotes, and a line that is
one quoted token comes back with its quotes. -/
theorem split_args_last_token_keeps_quotes :
    split_args "\"a b\" c".toList = ["a b".toList, "c".toList] ∧
    split_args "c \"a b\"".toList = ["c".toList, "\"a b\"".toList] ∧
    split_args "\"a b\"".toList = ["\"a b\"".toList] := by
  decide

/-- C20 (the code at the inputs of the claim): the spaces behind the last token
stay in it, so `a b ` gives `a` and `b ` with its space; a line that begins
with a space leaves the loop at once and comes back as one token. -/
theorem split_args_last_token_keeps_spaces :
    split_args "a b ".toList = ["a".toList, "b ".toList] ∧
    split_args "a  ".toList = ["a  ".toList] ∧
    split_args " a".toList = [" a".toList] ∧
    split_args " a b".toList = [" a b".toList] := by
  decide

theorem split_args_loop_ne_nil (fuel : Nat) (s : List Char) (res : List wstring) :
    split_args_loop fuel s res ≠ [] := by
  induction fuel generalizing s res with
  | zero => simp [split_args_loop]
  | succ f ih =>
    rw [split_args_loop]
    rcases find_next_arg s with _ | k
    · simp
    · simp only
      split_ifs <;> first
        | exact ih _ _
        | simp

/-- C12: `split_args` gives a result for every input, the bound on the number
of iterations is never reached, the result holds at least one token, and the
empty line gives one empty token. -/
theorem split_args_never_empty (str : wstring) :
    split_args str ≠ [] ∧ 1 ≤ (split_args str).length ∧
    (∀ fuel, str.length < fuel → split_args_loop fuel str [] = split_args str) ∧
    split_args [] = [[]] := by
  have hne : split_args str ≠ [] := split_args_loop_ne_nil _ _ _
  refine ⟨hne, List.length_pos.mpr hne, ?_, rfl⟩
  intro fuel hf
  exact split_args_loop_fuel fuel (str.length + 1) str [] hf (Nat.lt_succ_self _)

/-! ## The constructor, read_first_line and enum_reg at inputs of the claims -/

/-- C14 (the code at the inputs of the claim): the tags 3.9 and 3.9-32 give
major 3 and minor 9, a tag that does not begin with a number gives major 0,
and a second component that is not a number gives minor 0; but for the tag 3,
where nothing follows the first number, `minor` is never assigned and keeps
whatever value the member held. -/
theorem construct_minor_unassigned (install_path exe_name : wstring)
    (priority uninit_minor : Int) :
    (python_version.construct "3.9".toList install_path exe_name priority uninit_minor).major = 3 ∧
    (python_version.construct "3.9".toList install_path exe_name priority uninit_minor).minor = 9 ∧
    (python_version.construct "3.9-32".toList install_path exe_name priority uninit_minor).major = 3 ∧
    (python_version.construct "3.9-32".toList install_path exe_name priority uninit_minor).minor = 9 ∧
    (python_version.construct "x.9".toList install_path exe_name priority uninit_minor).major = 0 ∧
    (python_version.construct "3.x".toList install_path exe_name priority uninit_minor).minor = 0 ∧
    (python_version.construct "3".toList install_path exe_name priority uninit_minor).major = 3 ∧
    (python_version.construct "3".toList install_path exe_name priority uninit_minor).minor =
      uninit_minor := by
  refine ⟨?_, ?_, ?_, ?_, ?_, ?_, ?_, ?_⟩ <;> rfl

/-- C16 (the code at the input of the claim): the bytes of `#!python3` and a
line feed in UTF-16 little-endian without byte-order mark begin with a nonzero
byte followed by a zero byte. The test of the second branch is
`!buffer[0] && buffer[1]`, which these bytes fail, so they go to the
conversion from the ANSI code page as the NUL-terminated byte string `#`, and
`parse_shebang` finds no shebang. The second branch is taken by a buffer whose
first byte is zero and whose second byte is not. -/
theorem read_first_line_raw_utf16 (MultiByteToWideChar : Nat → List Nat → wstring)
    (extract : List wstring → wstring → Option ExtractResult)
    (filename tag : wstring) (args : List wstring) :
    utf16le "#!python3\n".toList =
      [35, 0, 33, 0, 112, 0, 121, 0, 116, 0, 104, 0, 111, 0, 110, 0, 51, 0, 10, 0] ∧
    read_first_line (fun _ => some (utf16le "#!python3\n".toList)) MultiByteToWideChar filename =
      some (MultiByteToWideChar CP_ACP [35]) ∧
    read_first_line (fun _ => some (utf16le "#!python3\n".toList)) ascii_code_page filename =
      some "#".toList ∧
    parse_shebang (read_first_line (fun _ => some (utf16le "#!python3\n".toList)) ascii_code_page)
      extract filename tag args = some (false, args, tag) ∧
    read_first_line (fun _ => some [0, 35, 0, 33, 0, 0]) MultiByteToWideChar filename =
      some [Char.ofNat 8960, Char.ofNat 8448] := by
  refine ⟨by decide, rfl, rfl, rfl, rfl⟩

/-- C17 (the code at the input of the claim): with `InstallPath` holding
`C:\Python39`, `ExeName` holding `py.exe` and a binary probe that succeeds, the
value of `ExeName` is read into `path`, so the installation gets `py.exe` as
install path and the unwritten array `exe_name` as executable name. Without an
`ExeName` value the installation gets the install path and `python.exe`, or
`pythonw.exe` for the windowed variant. An `ExeName` longer than the install
path does not fit `cbPath`, and the entry is skipped. -/
theorem enum_reg_exe_name_overwrites_path (uninit_exe_name : wstring) (uninit_minor : Int) :
    enum_reg (fun _ => some 6) uninit_exe_name uninit_minor []
        [RegEnumItem.subkey ⟨"3.9".toList, true, RegValue.found "C:\\Python39".toList,
          RegValue.found "py.exe".toList, RegValue.not_found⟩] 1 false false =
      [⟨"3.9".toList, "py.exe".toList, uninit_exe_name.takeWhile (· != '\x00'), 3, 9, 1⟩] ∧
    enum_reg (fun _ => some 6) uninit_exe_name uninit_minor []
        [RegEnumItem.subkey ⟨"3.9".toList, true, RegValue.found "C:\\Python39".toList,
          RegValue.not_found, RegValue.not_found⟩] 1 false false =
      [⟨"3.9".toList, "C:\\Python39".toList, "python.exe".toList, 3, 9, 1⟩] ∧
    enum_reg (fun _ => some 6) uninit_exe_name uninit_minor []
        [RegEnumItem.subkey ⟨"3.9".toList, true, RegValue.found "C:\\Python39".toList,
          RegValue.not_found, RegValue.not_found⟩] 1 true false =
      [⟨"3.9".toList, "C:\\Python39".toList, "pythonw.exe".toList, 3, 9, 1⟩] ∧
    enum_reg (fun _ => some 6) uninit_exe_name uninit_minor []
        [RegEnumItem.subkey ⟨"3.9".toList, true, RegValue.found "C:\\P39".toList,
          RegValue.found "python3.exe".toList, RegValue.not_found⟩] 1 false false = [] := by
  refine ⟨rfl, rfl, rfl, rfl⟩

/-! ## Interpreter templates -/

theorem template_strip_iff (a0 tmpl : wstring) :
    (decide (a0.length > tmpl.length) && a0.take tmpl.length == tmpl) = true ↔
      tmpl <+: a0 ∧ a0 ≠ tmpl := by
  rw [List.prefix_iff_eq_take, Bool.and_eq_true, decide_eq_true_eq, beq_iff_eq]
  constructor
  · rintro ⟨h1, h2⟩
    refine ⟨h2.symm, ?_⟩
    intro e
    rw [e] at h1
    omega
  · rintro ⟨h1, h2⟩
    refine ⟨?_, h1.symm⟩
    have hle : tmpl.length ≤ a0.length := by
      have := congrArg List.length h1
      rw [List.length_take] at this
      omega
    rcases Nat.lt_or_eq_of_le hle with h | h
    · exact h
    · exfalso
      apply h2
      rw [h1, h, List.take_length]

/-- One round of the template loop on a first token `a0`. -/
theorem parse_shebang_templates_cons (tmpl : wstring) (more : List wstring)
    (a0 : wstring) (rest : List wstring) :
    parse_shebang_templates (tmpl :: more) (a0 :: rest) =
      if a0 = tmpl then rest
      else if tmpl <+: a0 then a0.drop tmpl.length :: rest
      else parse_shebang_templates more (a0 :: rest) := by
  rw [parse_shebang_templates]
  by_cases h1 : a0 = tmpl
  · simp [h1]
  · have hb : (a0 == tmpl) = false := by simpa using h1
    simp only [hb, Bool.false_eq_true, if_false, h1]
    by_cases h2 : tmpl <+: a0
    · rw [if_pos ((template_strip_iff a0 tmpl).mpr ⟨h2, h1⟩), if_pos h2]
    · rw [if_neg (fun h => h2 ((template_strip_iff a0 tmpl).mp h).1), if_neg h2]

/-- C19: in `parse_shebang`, a first token equal to `/usr/bin/env` or to
`/usr/bin/` is removed and the other tokens are kept; otherwise a first token
that begins with `/usr/bin/env` loses that text, otherwise one that begins with
`/usr/bin/` loses that text, the other tokens being unchanged; otherwise the
tokens are unchanged. The shebang `#!/usr/bin/python3 -u` gives the tokens
`python3` and `-u`, and from them the tag 3. -/
theorem parse_shebang_templates_spec (t : wstring) (rest : List wstring) :
    ((t = "/usr/bin/env".toList ∨ t = "/usr/bin/".toList) →
      parse_shebang_templates SHEBANG_TEMPLATES (t :: rest) = rest) ∧
    (t ≠ "/usr/bin/env".toList → "/usr/bin/env".toList <+: t →
      parse_shebang_templates SHEBANG_TEMPLATES (t :: rest) =
        t.drop "/usr/bin/env".toList.length :: rest) ∧
    (t ≠ "/usr/bin/".toList → ¬ "/usr/bin/env".toList <+: t → "/usr/bin/".toList <+: t →
      parse_shebang_templates SHEBANG_TEMPLATES (t :: rest) =
        t.drop "/usr/bin/".toList.length :: rest) ∧
    (¬ "/usr/bin/env".toList <+: t → ¬ "/usr/bin/".toList <+: t →
      parse_shebang_templates SHEBANG_TEMPLATES (t :: rest) = t :: rest) ∧
    parse_shebang_templates SHEBANG_TEMPLATES
        (split_args (skip_shebang "#!/usr/bin/python3 -u".toList)) =
      ["python3".toList, "-u".toList] ∧
    (∀ fuel tag0, extract_version (fun _ => none) (fuel + 1)
        ["python3".toList, "-u".toList] tag0 = some (true, [[], "-u".toList], "3".toList)) ∧
    extract_version (fun _ => some "#!/usr/bin/python3 -u\n".toList) 2
        ["py.exe".toList, "script.py".toList] [] =
      some (true, [[], "-u".toList, "script.py".toList], "3".toList) := by
  have hunf : parse_shebang_templates SHEBANG_TEMPLATES (t :: rest) =
      if t = "/usr/bin/env".toList then rest
      else if "/usr/bin/env".toList <+: t then t.drop "/usr/bin/env".toList.length :: rest
      else if t = "/usr/bin/".toList then rest
      else if "/usr/bin/".toList <+: t then t.drop "/usr/bin/".toList.length :: rest
      else t :: rest := by
    rw [SHEBANG_TEMPLATES, parse_shebang_templates_cons, parse_shebang_templates_cons]
    rfl
  have hbin : ¬ "/usr/bin/env".toList <+: "/usr/bin/".toList := by decide
  have henv2 : ¬ "/usr/bin/env".toList = "/usr/bin/".toList := by decide
  refine ⟨?_, ?_, ?_, ?_, by decide, ?_, by decide⟩
  · rintro (h | h)
    · rw [hunf, if_pos h]
    · rw [hunf, h, if_neg (fun e => henv2 e.symm), if_neg hbin, if_pos rfl]
  · intro h1 h2
    rw [hunf, if_neg h1, if_pos h2]
  · intro h1 h2 h3
    have h0 : t ≠ "/usr/bin/env".toList := fun e => h2 (e ▸ List.prefix_refl _)
    rw [hunf, if_neg h0, if_neg h2, if_neg h1, if_pos h3]
  · intro h2 h3
    have h0 : t ≠ "/usr/bin/env".toList := fun e => h2 (e ▸ List.prefix_refl _)
    have h1 : t ≠ "/usr/bin/".toList := fun e => h3 (e ▸ List.prefix_refl _)
    rw [hunf, if_neg h0, if_neg h2, if_neg h1, if_neg h3]
  · intro fuel tag0
    apply extract_version_process_name_step
    · intro a1 h
      simp only [List.head?_cons, Option.some.injEq] at h
      subst h
      decide
    · decide

/-! ## Requests that are only suffixes -/

/-- What `find_suitable_version` computes for a request that is empty or only
`w` or `W`. -/
theorem find_suitable_version_only_w (scan : Bool → Bool → List python_version)
    (w : wstring) (hw : w = [] ∨ w = ['w'] ∨ w = ['W']) :
    find_suitable_version scan w =
      (std_sort (scan (decide (w ≠ [])) false)).head?.getD python_version.invalid := by
  rcases hw with rfl | rfl | rfl
  · rw [find_suitable_version_nil]
    simp
  · simp only [find_suitable_version]
    simp only [List.length_singleton, ge_iff_le, le_refl, decide_True, List.getLast?_singleton,
      beq_self_eq_true, Bool.true_or, Bool.and_self, if_true, List.dropLast_single,
      List.length_nil, Nat.not_succ_le_zero, decide_False, Bool.false_and, bne_self_eq_false,
      Bool.false_eq_true, if_false]
    have hd : decide (['w'] ≠ ([] : List Char)) = true := by decide
    have hx : (decide (3 ≤ 0) && List.drop (0 - 3) ([] : List Char) == "-32".toList) = false := by
      decide
    rw [hd, hx]
    cases (std_sort (scan true false)).head? <;> rfl
  · simp only [find_suitable_version]
    simp only [List.length_singleton, ge_iff_le, le_refl, decide_True, List.getLast?_singleton,
      beq_self_eq_true, Bool.or_true, Bool.and_self, if_true, List.dropLast_single,
      List.length_nil, Nat.not_succ_le_zero, decide_False, Bool.false_and, bne_self_eq_false,
      Bool.false_eq_true, if_false]
    have hd : decide (['W'] ≠ ([] : List Char)) = true := by decide
    have hx : (decide (3 ≤ 0) && List.drop (0 - 3) ([] : List Char) == "-32".toList) = false := by
      decide
    rw [hd, hx]
    cases (std_sort (scan true false)).head? <;> rfl

/-- What `find_suitable_version` computes for the request `-32`, with or
without a final `w`/`W`: the text `-32` stays in the request and is looked up
as a prefix of the tags. -/
theorem find_suitable_version_only_32 (scan : Bool → Bool → List python_version)
    (w : wstring) (hw : w = [] ∨ w = ['w'] ∨ w = ['W']) :
    find_suitable_version scan ("-32".toList ++ w) =
      ((std_sort (scan (decide (w ≠ [])) true)).find?
        (fun pv => decide ("-32".toList <+: pv.tag))).getD python_version.invalid := by
  have hp : ∀ v : wstring, v = "-32".toList ∨ v = "-32".toList ++ ['w'] ∨
      v = "-32".toList ++ ['W'] →
      ((if (decide (v.length ≥ 1) &&
          (v.getLast? == some 'w' || v.getLast? == some 'W')) = true
        then v.dropLast else v) = "-32".toList) ∧
      ((decide (v.length ≥ 1) &&
          (v.getLast? == some 'w' || v.getLast? == some 'W')) =
        decide (v ≠ "-32".toList)) := by
    intro v hv
    rcases hv with rfl | rfl | rfl <;> decide
  have hv : "-32".toList ++ w = "-32".toList ∨ "-32".toList ++ w = "-32".toList ++ ['w'] ∨
      "-32".toList ++ w = "-32".toList ++ ['W'] := by
    rcases hw with rfl | rfl | rfl <;> simp
  have hd : decide ("-32".toList ++ w ≠ "-32".toList) = decide (w ≠ []) := by
    rcases hw with rfl | rfl | rfl <;> decide
  obtain ⟨h1, h2⟩ := hp _ hv
  simp only [find_suitable_version]
  rw [h1, h2, hd]
  have hx : (decide ("-32".toList.length ≥ 3) &&
      "-32".toList.drop ("-32".toList.length - 3) == "-32".toList) = true := by decide
  have hl : ("-32".toList.length != 0) = true := by decide
  have hg : (true && decide ("-32".toList.length > 3)) = false := by decide
  rw [hx]
  simp only [hl, hg, if_true, Bool.false_eq_true, if_false, find_python_eq]
  rcases hs : (std_sort (scan (decide (w ≠ [])) true)).find?
      (fun pv => decide ("-32".toList <+: pv.tag)) with _ | r
  · rw [hs]; rfl
  · rw [hs]; rfl

/-- C18 (as stated) fails: with the single candidate 3.9 in the 32-bit list the
sorted list is not empty, and the requests `-32`, `-32w` and `-32W` return the
invalid sentinel. -/
theorem find_suitable_version_only_32_fails :
    std_sort [sample "3.9" "C:\\Python39-32" 3 9 3] ≠ [] ∧
    find_suitable_version (fun _ _ => [sample "3.9" "C:\\Python39-32" 3 9 3]) "-32".toList =
      python_version.invalid ∧
    find_suitable_version (fun _ _ => [sample "3.9" "C:\\Python39-32" 3 9 3]) "-32w".toList =
      python_version.invalid ∧
    find_suitable_version (fun _ _ => [sample "3.9" "C:\\Python39-32" 3 9 3]) "-32W".toList =
      python_version.invalid := by
  decide

/-- C18 (amended): `find_suitable_version` removes a final `w`/`W` from the
request; when nothing is left it returns a candidate of the list scanned
without the 32-bit filter that no candidate precedes, or the invalid sentinel
for an empty list. A final `-32` sets the 32-bit filter and is not removed: the
request `-32`, with or without `w`/`W`, returns the invalid sentinel when no
candidate tag begins with `-32`, and otherwise a candidate whose tag begins
with `-32` that no such candidate precedes. -/
theorem find_suitable_version_suffix_only (scan : Bool → Bool → List python_version)
    (w : wstring) (hw : w = [] ∨ w = ['w'] ∨ w = ['W']) :
    (scan (decide (w ≠ [])) false ≠ [] →
      find_suitable_version scan w ∈ scan (decide (w ≠ [])) false ∧
      ∀ c ∈ scan (decide (w ≠ [])) false,
        c.operator_lt (find_suitable_version scan w) = false) ∧
    (scan (decide (w ≠ [])) false = [] →
      find_suitable_version scan w = python_version.invalid) ∧
    ((∀ c ∈ scan (decide (w ≠ [])) true, ¬ "-32".toList <+: c.tag) →
      find_suitable_version scan ("-32".toList ++ w) = python_version.invalid) ∧
    ((∃ c ∈ scan (decide (w ≠ [])) true, "-32".toList <+: c.tag) →
      find_suitable_version scan ("-32".toList ++ w) ∈ scan (decide (w ≠ [])) true ∧
      "-32".toList <+: (find_suitable_version scan ("-32".toList ++ w)).tag ∧
      ∀ c ∈ scan (decide (w ≠ [])) true, "-32".toList <+: c.tag →
        c.operator_lt (find_suitable_version scan ("-32".toList ++ w)) = false) := by
  rw [find_suitable_version_only_w scan w hw, find_suitable_version_only_32 scan w hw]
  refine ⟨?_, ?_, ?_, ?_⟩
  · intro hne
    rcases hs : (std_sort (scan (decide (w ≠ [])) false)).head? with _ | r
    · exfalso
      rw [List.head?_eq_none_iff] at hs
      have hp := std_sort_perm (scan (decide (w ≠ [])) false)
      rw [hs] at hp
      exact hne (List.Perm.nil_eq hp).symm
    · simp only [Option.getD_some]
      exact head_sorted_first _ _ r (std_sort_perm _) (std_sort_pairwise _) hs
  · intro he
    rw [he]
    rfl
  · intro hno
    have hs : (std_sort (scan (decide (w ≠ [])) true)).find?
        (fun pv => decide ("-32".toList <+: pv.tag)) = none := by
      rw [find_sorted_none _ _ _ (std_sort_perm _)]
      intro d hd
      rw [decide_eq_false_iff_not]
      exact hno d hd
    rw [hs]
    rfl
  · intro ⟨c, hc, hpc⟩
    rcases hs : (std_sort (scan (decide (w ≠ [])) true)).find?
        (fun pv => decide ("-32".toList <+: pv.tag)) with _ | r
    · rw [find_sorted_none _ _ _ (std_sort_perm _)] at hs
      have hcs := hs c hc
      rw [decide_eq_false_iff_not] at hcs
      exact absurd hpc hcs
    · obtain ⟨h1, h2, h3⟩ :=
        find_sorted_first _ _ _ r (std_sort_perm _) (std_sort_pairwise _) hs
      simp only [hs, Option.getD_some]
      exact ⟨h1, of_decide_eq_true h2,
        fun c hc hpc => h3 c hc (decide_eq_true hpc)⟩

theorem find_suitable_version_suffix_only_witness :
    find_suitable_version (fun pw _ => if pw then [sample "3.9" "C:\\Python39" 3 9 2,
        sample "3.11" "C:\\Users\\u\\Python311" 3 11 1] else []) ['w'] ∈
      [sample "3.9" "C:\\Python39" 3 9 2, sample "3.11" "C:\\Users\\u\\Python311" 3 11 1] ∧
    find_suitable_version (fun pw _ => if pw then [sample "3.9" "C:\\Python39" 3 9 2,
        sample "3.11" "C:\\Users\\u\\Python311" 3 11 1] else []) ("-32".toList ++ ['w']) =
      python_version.invalid :=
  ⟨((find_suitable_version_suffix_only (fun pw _ => if pw then
      [sample "3.9" "C:\\Python39" 3 9 2, sample "3.11" "C:\\Users\\u\\Python311" 3 11 1]
      else []) ['w'] (by decide)).1 (by decide)).1,
   (find_suitable_version_suffix_only (fun pw _ => if pw then
      [sample "3.9" "C:\\Python39" 3 9 2, sample "3.11" "C:\\Users\\u\\Python311" 3 11 1]
      else []) ['w'] (by decide)).2.2.1 (by decide)⟩

/-! ## Scripts without a usable shebang -/

theorem shebang_check_iff (line : wstring) :
    (decide (line.length < 2) || line.get? 0 != some '#' || line.get? 1 != some '!') = false ↔
      "#!".toList <+: line := by
  have e : "#!".toList = ['#', '!'] := rfl
  rw [e]
  rcases line with _ | ⟨c0, _ | ⟨c1, r⟩⟩
  · simp
  · simp
  · simp only [List.length_cons, List.get?_cons_zero, List.get?_cons_succ, Bool.or_eq_false_iff,
      decide_eq_false_iff_not, bne_eq_false_iff_eq, Option.some.injEq, List.cons_prefix_cons]
    constructor
    · rintro ⟨⟨_, h0⟩, h1⟩
      exact ⟨h0.symm, h1.symm, List.nil_prefix⟩
    · rintro ⟨h0, h1, _⟩
      exact ⟨⟨by omega, h0.symm⟩, h1.symm⟩

/-- `parse_shebang` returns false and changes nothing when the file gives no
line or a line that does not begin with `#!`. -/
theorem parse_shebang_no_shebang (reader : wstring → Option wstring)
    (extract : List wstring → wstring → Option ExtractResult)
    (filename tag : wstring) (allArgs : List wstring)
    (h : reader filename = none ∨
      ∃ line, reader filename = some line ∧ ¬ "#!".toList <+: line) :
    parse_shebang reader extract filename tag allArgs = some (false, allArgs, tag) := by
  rcases h with h | ⟨line, h1, h2⟩
  · simp only [parse_shebang, h]
  · have hc : (decide (line.length < 2) || line.get? 0 != some '#' ||
        line.get? 1 != some '!') = true := by
      rw [← Bool.not_eq_false, shebang_check_iff]
      exact h2
    simp only [parse_shebang, h1, hc, if_true]

theorem read_first_line_short (ReadFile : wstring → Option (List Nat))
    (MultiByteToWideChar : Nat → List Nat → wstring) (filename : wstring)
    (h : ReadFile filename = none ∨
      ∃ bytes, ReadFile filename = some bytes ∧ bytes.length < 3) :
    read_first_line ReadFile MultiByteToWideChar filename = none := by
  rcases h with h | ⟨bytes, h1, h2⟩
  · simp only [read_first_line, h]
  · have hl : (bytes.take 2046).length < 3 := by
      rw [List.length_take]; omega
    simp only [read_first_line, h1, hl, if_true]

/-- The last branch of `extract_version` when no argument behind slot 0 names a
script: the call returns false and changes nothing. -/
theorem extract_version_no_script (reader : wstring → Option wstring)
    (fuel : Nat) (a0 a1 : wstring) (rest : List wstring) (tag0 : wstring)
    (hflag : (decide (a1.length ≥ 1) &&
      (a1.head? == some '2' || a1.head? == some '3')) = false)
    (hname : check_process_name a0 = none)
    (hfind : ((a0 :: a1 :: rest).drop 1).find?
      (fun a => decide (a.length > 0) && a.head? != some '-') = none) :
    extract_version reader (fuel + 1) (a0 :: a1 :: rest) tag0 =
      some (false, a0 :: a1 :: rest, tag0) := by
  simp only [extract_version, hflag]
  simp only [Bool.false_eq_true, if_false, hname, List.length_cons, ge_iff_le]
  simp only [List.drop_succ_cons, List.drop_zero] at hfind
  simp [hfind]

/-- C15: when neither the first-argument check nor the process-name check gives
a tag, and the file of the first argument behind slot 0 that is not empty and
does not begin with `-` cannot be opened or read, gives fewer than 3 bytes, or
gives a line that does not begin with `#!`, then `extract_version` returns
false and leaves the argument list and the tag as they were, and `parse_args`
returns that list with slot 0 cleared. -/
theorem extract_version_unreadable_script (ReadFile : wstring → Option (List Nat))
    (MultiByteToWideChar : Nat → List Nat → wstring)
    (fuel : Nat) (args : List wstring) (tag0 : wstring)
    (hflag : ∀ a1, args.get? 1 = some a1 → a1.head? ≠ some '2' ∧ a1.head? ≠ some '3')
    (hname : ∀ a0, args.head? = some a0 → check_process_name a0 = none)
    (hfile : ∀ f,
      (args.drop 1).find? (fun a => decide (a.length > 0) && a.head? != some '-') = some f →
      ReadFile f = none ∨ (∃ bytes, ReadFile f = some bytes ∧ bytes.length < 3) ∨
      (∃ line, read_first_line ReadFile MultiByteToWideChar f = some line ∧
        ¬ "#!".toList <+: line)) :
    extract_version (read_first_line ReadFile MultiByteToWideChar) (fuel + 1) args tag0 =
      some (false, args, tag0) ∧
    (∀ line, split_args line = args →
      parse_args (read_first_line ReadFile MultiByteToWideChar) (fuel + 1) line tag0 =
        some (args.set 0 [], tag0)) := by
  have hmain : extract_version (read_first_line ReadFile MultiByteToWideChar) (fuel + 1)
      args tag0 = some (false, args, tag0) := by
    rcases args with _ | ⟨a0, _ | ⟨a1, rest⟩⟩
    · simp [extract_version]
    · have h0 := hname a0 rfl
      simp only [extract_version, h0]
      simp
    · have h0 := hname a0 rfl
      obtain ⟨h2, h3⟩ := hflag a1 rfl
      have hf : (decide (a1.length ≥ 1) &&
          (a1.head? == some '2' || a1.head? == some '3')) = false := by
        simp [h2, h3]
      rcases hfind : ((a0 :: a1 :: rest).drop 1).find?
          (fun a => decide (a.length > 0) && a.head? != some '-') with _ | f
      · exact extract_version_no_script _ fuel a0 a1 rest tag0 hf h0 hfind
      · rw [extract_version_shebang_step _ fuel a0 a1 rest tag0 f hf h0 hfind]
        apply parse_shebang_no_shebang
        rcases hfile f hfind with h | h | h
        · left; exact read_first_line_short _ _ _ (Or.inl h)
        · left; exact read_first_line_short _ _ _ (Or.inr h)
        · right; exact h
  refine ⟨hmain, ?_⟩
  intro line hline
  have hlen : args.length ≥ 1 := by
    rw [← hline]
    exact List.length_pos.mpr (split_args_loop_ne_nil _ _ _)
  simp only [parse_args, hline, hmain]
  rw [if_pos hlen]

theorem extract_version_unreadable_script_witness :
    extract_version (read_first_line (fun _ => some [35, 33]) ascii_code_page) 1
        ["py.exe".toList, "-u".toList, "script.py".toList] "x".toList =
      some (false, ["py.exe".toList, "-u".toList, "script.py".toList], "x".toList) ∧
    parse_args (read_first_line (fun _ => some [35, 33]) ascii_code_page) 1
        "py.exe -u script.py".toList "x".toList =
      some ([[], "-u".toList, "script.py".toList], "x".toList) :=
  ⟨(extract_version_unreadable_script (fun _ => some [35, 33]) ascii_code_page 0
      ["py.exe".toList, "-u".toList, "script.py".toList] "x".toList
      (by decide) (by decide) (fun f _ => Or.inr (Or.inl ⟨[35, 33], rfl, by decide⟩))).1,
   (extract_version_unreadable_script (fun _ => some [35, 33]) ascii_code_page 0
      ["py.exe".toList, "-u".toList, "script.py".toList] "x".toList
      (by decide) (by decide) (fun f _ => Or.inr (Or.inl ⟨[35, 33], rfl, by decide⟩))).2
      "py.exe -u script.py".toList (by decide)⟩

/-! ## Runs of spaces between words -/

theorem find_next_arg_loop_spaces (n : Nat) (c : Char) (rest : List Char) (hc : c ≠ ' ') :
    find_next_arg_loop (List.replicate n ' ' ++ c :: rest) false false true = some n := by
  induction n with
  | zero =>
    have h1 : (c != ' ') = true := by simp [hc]
    simp [find_next_arg_loop, h1]
  | succ n ih =>
    rw [List.replicate_succ, List.cons_append, find_next_arg_loop]
    have h1 : ((' ' : Char) != ' ') = false := by decide
    have h2 : ((' ' : Char) == '"') = false := by decide
    have h3 : ((' ' : Char) == '\\') = false := by decide
    simp only [h1, h2, h3, Bool.and_false, Bool.false_and, Bool.false_eq_true, if_false,
      beq_self_eq_true, Bool.not_false, Bool.and_self, if_true, ih, Option.map_some']

/-- The next argument behind a word, a run of `g + 1` spaces and a character
that is not a space starts at that character. -/
theorem find_next_arg_word (w : List Char) (g : Nat) (c : Char) (rest : List Char)
    (hne : w ≠ []) (hsp : ' ' ∉ w) (hq : '"' ∉ w) (hb : '\\' ∉ w) (hc : c ≠ ' ') :
    find_next_arg (w ++ (List.replicate (g + 1) ' ' ++ c :: rest)) =
      some (w.length + g + 1) := by
  have hl : w.getLast? ≠ some '\\' := fun h => hb (List.mem_of_getLast?_eq_some h)
  obtain ⟨e1, h1, _, h3⟩ := find_next_arg_loop_skip w
    (List.replicate (g + 1) ' ' ++ c :: rest) false false
    (fun d hd e => hq (e ▸ hd)) (fun _ d hd e => hsp (e ▸ hd))
  unfold find_next_arg
  rw [h1, h3 hne hl, List.replicate_succ, List.cons_append, find_next_arg_loop]
  have h2 : ((' ' : Char) == '"') = false := by decide
  have h4 : ((' ' : Char) == '\\') = false := by decide
  simp only [h2, h4, Bool.false_and, Bool.false_eq_true, if_false, beq_self_eq_true,
    Bool.not_false, Bool.and_self, if_true, find_next_arg_loop_spaces g c rest hc,
    Option.map_some', Option.some.injEq]
  omega

theorem get?_append_replicate (w : List Char) (n j : Nat) (tail : List Char) (hj : j < n) :
    (w ++ (List.replicate n ' ' ++ tail)).get? (w.length + j) = some ' ' := by
  rw [List.get?_eq_getElem?, List.getElem?_append_right (Nat.le_add_right _ _),
    Nat.add_sub_cancel_left, List.getElem?_append_left (by simpa using hj),
    List.getElem?_replicate]
  simp [hj]

theorem trim_end_word (w : List Char) (n : Nat) (tail : List Char) (j : Nat)
    (hne : w ≠ []) (hsp : ' ' ∉ w) (hj : j ≤ n) :
    trim_end (w ++ (List.replicate n ' ' ++ tail)) (w.length + j) = w.length := by
  induction j with
  | zero =>
    have hlen : w.length = (w.length - 1) + 1 := by
      have := List.length_pos.mpr hne
      omega
    obtain ⟨z, hz1, hz2⟩ : ∃ z, w.getLast? = some z ∧ z ≠ ' ' := by
      rcases hz : w.getLast? with _ | z
      · rw [List.getLast?_eq_none_iff] at hz; exact absurd hz hne
      · exact ⟨z, rfl, fun e => hsp (e ▸ List.mem_of_getLast?_eq_some hz)⟩
    have hg : (w ++ (List.replicate n ' ' ++ tail)).get? (w.length - 1) = some z := by
      rw [get?_pred_length_append w _ _ hlen, hz1]
    rw [Nat.add_zero, hlen, trim_end, hg, ← hlen]
    have : (some z == some ' ') = false := by simp [hz2]
    rw [this]
    rfl
  | succ j ih =>
    rw [← Nat.add_assoc, trim_end, get?_append_replicate w n j tail (by omega)]
    simp only [beq_self_eq_true, if_true]
    exact ih (by omega)

/-- One iteration of the loop of `split_args` on a word, a run of spaces and a
text that does not begin with a space: the word is appended and the loop goes
on with that text. -/
theorem split_args_loop_word (fuel : Nat) (w : List Char) (g : Nat) (c : Char)
    (rest : List Char) (res : List wstring)
    (hne : w ≠ []) (hsp : ' ' ∉ w) (hq : '"' ∉ w) (hb : '\\' ∉ w) (hc : c ≠ ' ') :
    split_args_loop (fuel + 1) (w ++ (List.replicate (g + 1) ' ' ++ c :: rest)) res =
      split_args_loop fuel (c :: rest) (res ++ [w]) := by
  rw [split_args_loop, find_next_arg_word w g c rest hne hsp hq hb hc]
  simp only [Nat.add_sub_cancel]
  rw [trim_end_word w (g + 1) (c :: rest) g hne hsp (by omega)]
  have hpos : (w.length == 0) = false := by
    have hp := List.length_pos.mpr hne
    rw [beq_eq_false_iff_ne]
    omega
  have hhead : ((w ++ (List.replicate (g + 1) ' ' ++ c :: rest)).head? == some '"') = false := by
    cases w with
    | nil => exact absurd rfl hne
    | cons x xs =>
      have hx : x ≠ '"' := fun e => hq (e ▸ List.mem_cons_self _ _)
      simpa using hx
  have hdrop : (w ++ (List.replicate (g + 1) ' ' ++ c :: rest)).drop (w.length + g + 1) =
      c :: rest := by
    rw [← List.append_assoc]
    apply List.drop_left'
    simp
    omega
  simp only [hpos, hhead, Bool.false_eq_true, if_false, List.take_left, hdrop]

theorem words_text_head (words : List (wstring × Nat)) (last : wstring)
    (hwords : ∀ p ∈ words, p.1 ≠ [] ∧ ' ' ∉ p.1 ∧ '"' ∉ p.1 ∧ '\\' ∉ p.1)
    (hlast : last ≠ [] ∧ ' ' ∉ last ∧ '"' ∉ last ∧ '\\' ∉ last) :
    ∃ c r, words.flatMap (fun p => p.1 ++ List.replicate (p.2 + 1) ' ') ++ last = c :: r ∧
      c ≠ ' ' := by
  cases words with
  | nil =>
    obtain ⟨hne, hsp, _, _⟩ := hlast
    cases last with
    | nil => exact absurd rfl hne
    | cons x xs => exact ⟨x, xs, rfl, fun e => hsp (e ▸ List.mem_cons_self _ _)⟩
  | cons p ps =>
    obtain ⟨hne, hsp, _, _⟩ := hwords p (List.mem_cons_self _ _)
    rcases hp : p.1 with _ | ⟨x, xs⟩
    · exact absurd hp hne
    · refine ⟨x, xs ++ List.replicate (p.2 + 1) ' ' ++
          ps.flatMap (fun p => p.1 ++ List.replicate (p.2 + 1) ' ') ++ last, ?_,
        fun e => hsp (by rw [hp, e]; exact List.mem_cons_self _ _)⟩
      rw [List.flatMap_cons, hp]
      simp

theorem split_args_loop_words (words : List (wstring × Nat)) (last : wstring)
    (hwords : ∀ p ∈ words, p.1 ≠ [] ∧ ' ' ∉ p.1 ∧ '"' ∉ p.1 ∧ '\\' ∉ p.1)
    (hlast : last ≠ [] ∧ ' ' ∉ last ∧ '"' ∉ last ∧ '\\' ∉ last)
    (res : List wstring) (fuel : Nat)
    (hfuel : (words.flatMap (fun p => p.1 ++ List.replicate (p.2 + 1) ' ') ++ last).length
      < fuel) :
    split_args_loop fuel
        (words.flatMap (fun p => p.1 ++ List.replicate (p.2 + 1) ' ') ++ last) res =
      res ++ (words.map Prod.fst ++ [last]) := by
  induction words generalizing res fuel with
  | nil =>
    obtain ⟨f, rfl⟩ : ∃ f, fuel = f + 1 := ⟨fuel - 1, by omega⟩
    simp only [List.flatMap_nil, List.nil_append, List.map_nil]
    rw [split_args_loop]
    have hn : find_next_arg last = none :=
      find_next_arg_loop_no_space last false false (fun c hc e => hlast.2.1 (e ▸ hc))
    rw [hn]
  | cons p ps ih =>
    obtain ⟨f, rfl⟩ : ∃ f, fuel = f + 1 := ⟨fuel - 1, by omega⟩
    have hps : ∀ q ∈ ps, q.1 ≠ [] ∧ ' ' ∉ q.1 ∧ '"' ∉ q.1 ∧ '\\' ∉ q.1 :=
      fun q hq => hwords q (List.mem_cons_of_mem _ hq)
    obtain ⟨hne, hsp, hq, hb⟩ := hwords p (List.mem_cons_self _ _)
    obtain ⟨c, r, hcr, hc⟩ := words_text_head ps last hps hlast
    have ht : (p :: ps).flatMap (fun p => p.1 ++ List.replicate (p.2 + 1) ' ') ++ last =
        p.1 ++ (List.replicate (p.2 + 1) ' ' ++ c :: r) := by
      rw [List.flatMap_cons, List.append_assoc, List.append_assoc, hcr]
    rw [ht] at hfuel ⊢
    rw [split_args_loop_word f p.1 p.2 c r res hne hsp hq hb hc, ← hcr, ih hps (res ++ [p.1]) f]
    · simp
    · rw [hcr]
      simp only [List.length_append, List.length_cons, List.length_replicate] at hfuel ⊢
      omega

/-- C13: for words that are non-empty and free of spaces, double quotes and
backslashes, joined by runs of one or more spaces without a space in front or
behind, `split_args` returns the words in order; `a  b` gives `a` and `b`. -/
theorem split_args_space_runs (words : List (wstring × Nat)) (last : wstring)
    (hwords : ∀ p ∈ words, p.1 ≠ [] ∧ ' ' ∉ p.1 ∧ '"' ∉ p.1 ∧ '\\' ∉ p.1)
    (hlast : last ≠ [] ∧ ' ' ∉ last ∧ '"' ∉ last ∧ '\\' ∉ last) :
    split_args (words.flatMap (fun p => p.1 ++ List.replicate (p.2 + 1) ' ') ++ last) =
      words.map Prod.fst ++ [last] ∧
    split_args "a  b".toList = ["a".toList, "b".toList] := by
  refine ⟨?_, by decide⟩
  unfold split_args
  rw [split_args_loop_words words last hwords hlast [] _ (Nat.lt_succ_self _)]
  rfl

theorem split_args_space_runs_witness :
    split_args ([("py.exe".toList, 0), ("-u".toList, 2), ("s.py".toList, 1)].flatMap
        (fun p => p.1 ++ List.replicate (p.2 + 1) ' ') ++ "arg".toList) =
      ["py.exe".toList, "-u".toList, "s.py".toList, "arg".toList] :=
  (split_args_space_runs [("py.exe".toList, 0), ("-u".toList, 2), ("s.py".toList, 1)]
    "arg".toList (by decide) (by decide)).1

/-- The first-argument branch of `extract_version`. -/
theorem extract_version_explicit_flag_step (reader : wstring → Option wstring)
    (fuel : Nat) (a0 a1 : wstring) (rest : List wstring) (tag0 : wstring)
    (h : a1.head? = some '2' ∨ a1.head? = some '3') :
    extract_version reader (fuel + 1) (a0 :: a1 :: rest) tag0 =
      some (true, [] :: rest, a1) := by
  have hl : a1.length ≥ 1 := by
    cases a1 with
    | nil => simp at h
    | cons c cs => simp
  rcases h with h | h <;> simp [extract_version, h, hl]

/-! ## The argument vector is never empty -/

/-- A call of `parse_shebang` on a vector of at least two elements leaves a
non-empty vector, whatever the recursive call returns. -/
theorem parse_shebang_length (reader : wstring → Option wstring)
    (extract : List wstring → wstring → Option ExtractResult)
    (filename tag : wstring) (allArgs : List wstring) (r : ExtractResult)
    (h : parse_shebang reader extract filename tag allArgs = some r)
    (hlen : 2 ≤ allArgs.length) : r.2.1 ≠ [] := by
  have hall : allArgs ≠ [] := by
    intro e; rw [e] at hlen; simp at hlen
  have hdrop : ∀ l : List wstring, l ++ allArgs.drop 1 ≠ [] := by
    intro l e
    have := congrArg List.length e
    simp only [List.length_append, List.length_drop, List.length_nil] at this
    omega
  unfold parse_shebang at h
  rcases hr : reader filename with _ | line
  · rw [hr] at h
    simp only [Option.some.injEq] at h
    rw [← h]; exact hall
  · rw [hr] at h
    simp only at h
    by_cases hc : (decide (line.length < 2) || line.get? 0 != some '#' ||
        line.get? 1 != some '!') = true
    · rw [if_pos hc] at h
      simp only [Option.some.injEq] at h
      rw [← h]; exact hall
    · rw [if_neg hc] at h
      by_cases hz : ((split_args (skip_shebang
          ((line.takeWhile (· != '\r')).takeWhile (· != '\n')))).length == 0) = true
      · rw [if_pos hz] at h
        simp only [Option.some.injEq] at h
        rw [← h]; exact hall
      · rw [if_neg hz] at h
        rcases he : extract (parse_shebang_templates SHEBANG_TEMPLATES
            (split_args (skip_shebang
              ((line.takeWhile (· != '\r')).takeWhile (· != '\n'))))) tag with _ | ⟨b, args1, tag1⟩
        · rw [he] at h
          simp at h
        · rw [he] at h
          simp only [Option.some.injEq] at h
          rw [← h]
          exact hdrop args1

/-- A call of `extract_version` on a non-empty vector leaves a non-empty
vector: the first-argument check and the shebang splice each take one element
from a vector of at least two. -/
theorem extract_version_length (reader : wstring → Option wstring) (fuel : Nat)
    (args : List wstring) (tag0 : wstring) (r : ExtractResult)
    (h : extract_version reader fuel args tag0 = some r) (hargs : args ≠ []) :
    r.2.1 ≠ [] := by
  cases fuel with
  | zero => simp [extract_version] at h
  | succ fuel =>
    rcases args with _ | ⟨a0, _ | ⟨a1, rest⟩⟩
    · exact absurd rfl hargs
    · rcases hn : check_process_name a0 with _ | t
      · simp only [extract_version, hn] at h
        simp at h
        rw [← h]
        simp
      · rw [extract_version_process_name_step reader fuel a0 [] tag0 t
          (by intro b hb; simp at hb) hn] at h
        simp only [Option.some.injEq] at h
        rw [← h]; simp
    · rcases hf : (decide (a1.length ≥ 1) &&
          (a1.head? == some '2' || a1.head? == some '3')) with _ | _
      · rcases hn : check_process_name a0 with _ | t
        · rcases hfind : ((a0 :: a1 :: rest).drop 1).find?
              (fun a => decide (a.length > 0) && a.head? != some '-') with _ | f
          · rw [extract_version_no_script reader fuel a0 a1 rest tag0 hf hn hfind] at h
            simp only [Option.some.injEq] at h
            rw [← h]
            simp
          · rw [extract_version_shebang_step reader fuel a0 a1 rest tag0 f hf hn hfind] at h
            exact parse_shebang_length reader _ f tag0 _ r h (by simp)
        · have hflag : ∀ b, (a1 :: rest).head? = some b →
              b.head? ≠ some '2' ∧ b.head? ≠ some '3' := by
            intro b hb
            simp only [List.head?_cons, Option.some.injEq] at hb
            rw [← hb]
            cases a1 with
            | nil => simp
            | cons x xs => simpa using hf
          rw [extract_version_process_name_step reader fuel a0 (a1 :: rest) tag0 t hflag hn] at h
          simp only [Option.some.injEq] at h
          rw [← h]; simp
      · have hh : a1.head? = some '2' ∨ a1.head? = some '3' := by
          simp only [Bool.and_eq_true, decide_eq_true_eq, Bool.or_eq_true, beq_iff_eq] at hf
          exact hf.2
        rw [extract_version_explicit_flag_step reader fuel a0 a1 rest tag0 hh] at h
        simp only [Option.some.injEq] at h
        rw [← h]; simp

theorem parse_args_length (reader : wstring → Option wstring) (fuel : Nat)
    (line tag0 : wstring) (args : List wstring) (tag1 : wstring)
    (h : parse_args reader fuel line tag0 = some (args, tag1)) : args ≠ [] := by
  have hne : split_args line ≠ [] := split_args_loop_ne_nil _ _ _
  have hlen : (split_args line).length ≥ 1 := List.length_pos.mpr hne
  unfold parse_args at h
  simp only at h
  rw [if_pos hlen] at h
  rcases he : extract_version reader fuel (split_args line) tag0 with _ | ⟨b, args1, tag2⟩
  · rw [he] at h
    simp at h
  · have h1 : args1 ≠ [] := extract_version_length reader fuel _ tag0 _ he hne
    rw [he] at h
    cases b with
    | false =>
      simp only [Option.some.injEq, Prod.mk.injEq] at h
      rw [← h.1]
      intro e
      have := congrArg List.length e
      rw [List.length_set] at this
      exact h1 (List.length_eq_zero.mp this)
    | true =>
      simp only [Option.some.injEq, Prod.mk.injEq] at h
      rw [← h.1]
      exact h1

/-- With files that cannot be read, `extract_version` returns within one level
of its recursion bound. -/
theorem extract_version_returns (reader : wstring → Option wstring)
    (hnone : ∀ f, reader f = none) (fuel : Nat) (args : List wstring) (tag0 : wstring) :
    ∃ r, extract_version reader (fuel + 1) args tag0 = some r := by
  rcases args with _ | ⟨a0, _ | ⟨a1, rest⟩⟩
  · exact ⟨(false, [], tag0), by simp [extract_version]⟩
  · rcases hn : check_process_name a0 with _ | t
    · refine ⟨(false, [a0], tag0), ?_⟩
      simp only [extract_version, hn]
      simp
    · exact ⟨_, extract_version_process_name_step reader fuel a0 [] tag0 t
        (by intro b hb; simp at hb) hn⟩
  · rcases hf : (decide (a1.length ≥ 1) &&
        (a1.head? == some '2' || a1.head? == some '3')) with _ | _
    · rcases hn : check_process_name a0 with _ | t
      · rcases hfind : ((a0 :: a1 :: rest).drop 1).find?
            (fun a => decide (a.length > 0) && a.head? != some '-') with _ | f
        · exact ⟨_, extract_version_no_script reader fuel a0 a1 rest tag0 hf hn hfind⟩
        · refine ⟨(false, a0 :: a1 :: rest, tag0), ?_⟩
          rw [extract_version_shebang_step reader fuel a0 a1 rest tag0 f hf hn hfind]
          exact parse_shebang_no_shebang reader _ f tag0 _ (Or.inl (hnone f))
      · have hflag : ∀ b, (a1 :: rest).head? = some b →
            b.head? ≠ some '2' ∧ b.head? ≠ some '3' := by
          intro b hb
          simp only [List.head?_cons, Option.some.injEq] at hb
          rw [← hb]
          cases a1 with
          | nil => simp
          | cons x xs => simpa using hf
        exact ⟨_, extract_version_process_name_step reader fuel a0 (a1 :: rest) tag0 t hflag hn⟩
    · have hh : a1.head? = some '2' ∨ a1.head? = some '3' := by
        simp only [Bool.and_eq_true, decide_eq_true_eq, Bool.or_eq_true, beq_iff_eq] at hf
        exact hf.2
      exact ⟨_, extract_version_explicit_flag_step reader fuel a0 a1 rest tag0 hh⟩

/-- C21: whenever `parse_args` returns, the returned list is not empty, so the
branch of `main` that prints `Invalid arguments!` is never taken. When no
script file can be read `parse_args` does return. -/
theorem parse_args_never_empty (reader : wstring → Option wstring)
    (scan : Bool → Bool → List python_version) (fuel : Nat)
    (line tag0 : wstring) (args : List wstring) (tag1 : wstring)
    (h : parse_args reader fuel line tag0 = some (args, tag1)) :
    args ≠ [] ∧ 1 ≤ args.length ∧
    main reader scan fuel line ≠ some MainOutcome.invalid_arguments ∧
    ((∀ f, reader f = none) → ∃ r, parse_args reader (fuel + 1) line tag0 = some r) := by
  have hne := parse_args_length reader fuel line tag0 args tag1 h
  refine ⟨hne, List.length_pos.mpr hne, ?_, ?_⟩
  · unfold main
    rcases hp : parse_args reader fuel line [] with _ | ⟨a, v⟩
    · simp
    · have ha := parse_args_length reader fuel line [] a v hp
      have hz : (a.length == 0) = false := by
        rw [beq_eq_false_iff_ne]
        exact fun e => ha (List.length_eq_zero.mp e)
      simp only [hz, Bool.false_eq_true, if_false]
      split_ifs <;> simp
  · intro hnone
    obtain ⟨⟨b, args1, tag2⟩, hr⟩ :=
      extract_version_returns reader hnone fuel (split_args line) tag0
    have hlen : (split_args line).length ≥ 1 :=
      List.length_pos.mpr (split_args_loop_ne_nil _ _ _)
    unfold parse_args
    simp only
    rw [if_pos hlen, hr]
    cases b <;> exact ⟨_, rfl⟩

theorem parse_args_never_empty_witness :
    parse_args (fun _ => some "#!/usr/bin/env\n".toList) 2 "py.exe script.py".toList [] =
      some (["script.py".toList], []) ∧
    main (fun _ => some "#!/usr/bin/env\n".toList) (fun _ _ => []) 2
      "py.exe script.py".toList ≠ some MainOutcome.invalid_arguments :=
  ⟨by decide,
   (parse_args_never_empty (fun _ => some "#!/usr/bin/env\n".toList) (fun _ _ => []) 2
      "py.exe script.py".toList [] ["script.py".toList] [] (by decide)).2.2.1⟩

/-! ## Round trip without double quotes and backslashes -/

/-- C22: for a non-empty list of tokens none of which holds a double quote or
a backslash and whose last token is non-empty and holds no space,
`split_args (join_args tokens)` gives the tokens back; empty tokens and tokens
with spaces before the last one are recovered. -/
theorem split_join_restricted (tokens : List wstring) (hne : tokens ≠ [])
    (hq : ∀ t ∈ tokens, '"' ∉ t ∧ '\\' ∉ t)
    (hlast : ∀ l, tokens.getLast? = some l → l ≠ [] ∧ ' ' ∉ l) :
    split_args (join_args tokens) = tokens := by
  have hsplit : tokens = tokens.dropLast ++ [tokens.getLast hne] :=
    (List.dropLast_append_getLast hne).symm
  have hl := hlast (tokens.getLast hne) (List.getLast?_eq_getLast _ hne)
  have hmid : ∀ t ∈ tokens.dropLast, '"' ∉ t ∧ t.getLast? ≠ some '\\' := by
    intro t ht
    obtain ⟨h1, h2⟩ := hq t (List.mem_of_mem_dropLast ht)
    exact ⟨h1, fun e => h2 (List.mem_of_getLast?_eq_some e)⟩
  have hmain := split_args_loop_join tokens.dropLast (tokens.getLast hne) hmid hl []
    ((join_args_loop true (tokens.dropLast ++ [tokens.getLast hne])).length + 1)
    (Nat.lt_succ_self _)
  rw [← hsplit] at hmain
  unfold split_args join_args
  rw [hmain]
  rfl

theorem split_join_restricted_witness :
    split_args (join_args [[], "C:/Program Files".toList, "a  b ".toList, "-x".toList]) =
      [[], "C:/Program Files".toList, "a  b ".toList, "-x".toList] ∧
    join_args [[], "a b".toList, "-x".toList] = "\"\" \"a b\" -x".toList :=
  ⟨split_join_restricted [[], "C:/Program Files".toList, "a  b ".toList, "-x".toList]
    (by decide) (by decide) (by decide), by decide⟩

end PyLauncher
